import Mathlib

/-!
Verification development for a 2D rigid-body physics engine (TypeScript source).

The source is shallowly embedded: JS `number` values are modelled as rationals
(`ℚ`), JS objects as Lean structures, in-place mutation as explicit state
passing, and `Map`/array iteration as list folds in insertion order.
Transcendental library functions (`Math.sin`, `Math.cos`, `Math.exp`,
`Math.sqrt`) are kept as abstract function parameters, since no verified claim
depends on their values; every theorem quantifies over them.  Where a claim is
about IEEE-754 double behaviour, a dedicated round-to-nearest-even model on ℕ
is used (`f64round` below).
-/

namespace Phys

/-- `lib/maths/util.ts` (`clamp`): `Math.min(Math.max(min, x), max)`. -/
def clamp (x lo hi : ℚ) : ℚ := min (max lo x) hi

/-- JS `Number.MAX_VALUE` = (2^53 − 1)·2^971. -/
def maxValue : ℚ := (2 ^ 53 - 1) * 2 ^ 971

/-- JS `Number.MAX_SAFE_INTEGER` = 2^53 − 1. -/
def maxSafeInteger : ℚ := 2 ^ 53 - 1

/-- 2D vector over ℚ (lib/maths/vec2.ts, class `Vec2`). -/
structure Vec2 where
  x : ℚ
  y : ℚ
deriving DecidableEq, Repr

def Vec2.zero : Vec2 := ⟨0, 0⟩

def Vec2.add (lhs rhs : Vec2) : Vec2 := ⟨lhs.x + rhs.x, lhs.y + rhs.y⟩

def Vec2.sub (lhs rhs : Vec2) : Vec2 := ⟨lhs.x - rhs.x, lhs.y - rhs.y⟩

def Vec2.neg (v : Vec2) : Vec2 := ⟨-v.x, -v.y⟩

def Vec2.mulScalar (lhs : Vec2) (rhs : ℚ) : Vec2 := ⟨lhs.x * rhs, lhs.y * rhs⟩

def Vec2.dot (lhs rhs : Vec2) : ℚ := lhs.x * rhs.x + lhs.y * rhs.y

def Vec2.cross (lhs rhs : Vec2) : ℚ := lhs.x * rhs.y - lhs.y * rhs.x

def Vec2.perpendicular (v : Vec2) : Vec2 := ⟨-v.y, v.x⟩

def Vec2.magnitudeSquared (v : Vec2) : ℚ := v.x * v.x + v.y * v.y

def Vec2.isZero (v : Vec2) : Bool := v.x == 0 && v.y == 0

/-- `Vec2.rotate(rad, origin, sin, cos)`: rotation about `origin` given the
already-computed sine and cosine of the angle. -/
def Vec2.rotatePt (v : Vec2) (origin : Vec2) (sin cos : ℚ) : Vec2 :=
  let p := Vec2.sub v origin
  Vec2.add ⟨cos * p.x - sin * p.y, sin * p.x + cos * p.y⟩ origin

/-- 3D vector, used only by `Vec2.tripleCross` (lib/maths/vec3.ts). -/
structure Vec3 where
  x : ℚ
  y : ℚ
  z : ℚ
deriving DecidableEq, Repr

def Vec3.cross (a b : Vec3) : Vec3 :=
  ⟨a.y * b.z - a.z * b.y, a.z * b.x - a.x * b.z, a.x * b.y - a.y * b.x⟩

def Vec3.intoVec2 (v : Vec3) : Vec2 := ⟨v.x, v.y⟩

/-- `Vec2.tripleCross(v1, v2, v3) = (v1 × v2) × v3` through `Vec3`. -/
def Vec2.tripleCross (v1 v2 v3 : Vec2) : Vec2 :=
  (Vec3.cross (Vec3.cross ⟨v1.x, v1.y, 0⟩ ⟨v2.x, v2.y, 0⟩) ⟨v3.x, v3.y, 0⟩).intoVec2

/-- `Vec2.normalise` divides by the magnitude when it is positive.  The square
root is an abstract parameter `sq` applied to the squared magnitude. -/
def Vec2.normalise (sq : ℚ → ℚ) (v : Vec2) : Vec2 :=
  let m := sq (v.x * v.x + v.y * v.y)
  if 0 < m then ⟨v.x / m, v.y / m⟩ else v

/-- Axis-aligned bounding box (lib/maths/aabb.ts). -/
structure AABB where
  min : Vec2
  max : Vec2
deriving DecidableEq, Repr

def AABB.translate (b : AABB) (delta : Vec2) : AABB :=
  ⟨Vec2.add b.min delta, Vec2.add b.max delta⟩

/-- `Polygon.getMinX`: fold of `Math.min` seeded with `MAX_SAFE_INTEGER`. -/
def polyMinX (ps : List Vec2) : ℚ := ps.foldl (fun m p => min m p.x) maxSafeInteger

def polyMinY (ps : List Vec2) : ℚ := ps.foldl (fun m p => min m p.y) maxSafeInteger

/-- `Polygon.getMaxX`: fold of `Math.max` seeded with `MIN_SAFE_INTEGER`. -/
def polyMaxX (ps : List Vec2) : ℚ := ps.foldl (fun m p => max m p.x) (-maxSafeInteger)

def polyMaxY (ps : List Vec2) : ℚ := ps.foldl (fun m p => max m p.y) (-maxSafeInteger)

/-- `Polygon.getArea`: half the absolute shoelace sum. -/
def polyArea (ps : List Vec2) : ℚ :=
  |((List.range ps.length).foldl
      (fun a i => a + Vec2.cross (ps.getD i Vec2.zero) (ps.getD ((i + 1) % ps.length) Vec2.zero))
      0)| * (1 / 2)

/-- `Polygon.getCentre`: vertex average. -/
def polyCentre (ps : List Vec2) : Vec2 :=
  let s := ps.foldl (fun a p => Vec2.add a p) Vec2.zero
  ⟨s.x / ps.length, s.y / ps.length⟩

/-- `Polygon.translate`. -/
def polyTranslate (ps : List Vec2) (delta : Vec2) : List Vec2 :=
  ps.map (fun p => Vec2.add p delta)

/-- `Polygon.setCentre`: translate so the centre lands on `centre`. -/
def polySetCentre (ps : List Vec2) (centre : Vec2) : List Vec2 :=
  polyTranslate ps (Vec2.sub centre (polyCentre ps))

/-- `AABB.fromShape`, using the polygon extent rules. -/
def aabbFromShape (ps : List Vec2) : AABB :=
  ⟨⟨polyMinX ps, polyMinY ps⟩, ⟨polyMaxX ps, polyMaxY ps⟩⟩

/-- Abstract stand-ins for `Math.sin`, `Math.cos`, `Math.exp`: every theorem
holds for an arbitrary choice of these real functions. -/
structure MathFns where
  sin : ℚ → ℚ
  cos : ℚ → ℚ
  exp : ℚ → ℚ

/-- Rigid body state (src/body.ts, class `RigidBody`).  The collider is
modelled by the `Polygon` variant of the shape trait (a vertex list); the
engine-internal `island` back-pointer is step-scoped and is modelled inside the
island-pass state (`IslandSt`) instead.  The numeric `id` is the key used by
the collision-pair cache. -/
structure RigidBody where
  id : ℕ
  timeStill : ℚ
  sleeping : Bool
  fixed : Bool
  collider : List Vec2
  bounds : AABB
  position : Vec2
  rotation : ℚ
  restitution : ℚ
  friction : ℚ
  density : ℚ
  mass : ℚ
  inverseMass : ℚ
  linearAcceleration : Vec2
  linearVelocity : Vec2
  angularMass : ℚ
  inverseAngularMass : ℚ
  angularAcceleration : ℚ
  angularVelocity : ℚ
deriving DecidableEq, Repr

/-- The `RigidBody` constructor.  `id` is the monotonically assigned
`RigidBody.nextID++`, passed explicitly here. -/
def mkRigidBody (id : ℕ) (collider : List Vec2) (position : Vec2)
    (mass angularMass restitution friction : ℚ) (fixed : Bool) : RigidBody :=
  let collider := polySetCentre collider position
  { id := id
    timeStill := 0
    sleeping := false
    fixed := fixed
    collider := collider
    bounds := aabbFromShape collider
    position := position
    rotation := 0
    restitution := restitution
    friction := friction
    density := mass / polyArea collider
    mass := mass
    inverseMass := if fixed then 0 else 1 / mass
    linearAcceleration := Vec2.zero
    linearVelocity := Vec2.zero
    angularMass := angularMass
    inverseAngularMass := if fixed then 0 else 1 / angularMass
    angularAcceleration := 0
    angularVelocity := 0 }

/-- `RigidBody.translate(delta)`. -/
def RigidBody.translate (b : RigidBody) (delta : Vec2) : RigidBody :=
  { b with
    position := Vec2.add b.position delta
    collider := polyTranslate b.collider delta
    bounds := b.bounds.translate delta }

/-- `RigidBody.rotate(delta)`: sine/cosine of the increment come from the
abstract `MathFns`; the bounds are recomputed from the collider extents. -/
def RigidBody.rotate (M : MathFns) (b : RigidBody) (delta : ℚ) : RigidBody :=
  let sin := M.sin delta
  let cos := M.cos delta
  let collider := b.collider.map (fun p => p.rotatePt b.position sin cos)
  { b with
    rotation := b.rotation + delta
    collider := collider
    bounds := ⟨⟨polyMinX collider, polyMinY collider⟩, ⟨polyMaxX collider, polyMaxY collider⟩⟩ }

/-- `RigidBody.getVelocityAtPoint(radius)`. -/
def RigidBody.getVelocityAtPoint (b : RigidBody) (radius : Vec2) : Vec2 :=
  Vec2.add b.linearVelocity (Vec2.mulScalar (Vec2.perpendicular radius) b.angularVelocity)

/-- `RigidBody.applyForce(force, radius)`. -/
def RigidBody.applyForce (b : RigidBody) (force radius : Vec2) : RigidBody :=
  { b with
    linearAcceleration := Vec2.add b.linearAcceleration (Vec2.mulScalar force b.inverseMass)
    angularAcceleration := b.angularAcceleration + Vec2.cross radius force * b.inverseAngularMass }

/-- `RigidBody.applyImpulse(impulse, radius)`. -/
def RigidBody.applyImpulse (b : RigidBody) (impulse radius : Vec2) : RigidBody :=
  { b with
    linearVelocity := Vec2.add b.linearVelocity (Vec2.mulScalar impulse b.inverseMass)
    angularVelocity := b.angularVelocity + Vec2.cross radius impulse * b.inverseAngularMass }

/-- `RigidBody.addToIsland` touches only the step-scoped island state; its
body-side effect is modelled in `IslandSt`. -/
def RigidBody.integrate (M : MathFns) (deltaSeconds : ℚ) (b : RigidBody) : RigidBody :=
  if b.fixed || b.sleeping then b
  else
    let b := { b with
      linearVelocity := Vec2.add b.linearVelocity (Vec2.mulScalar b.linearAcceleration deltaSeconds) }
    let b := b.translate (Vec2.mulScalar b.linearVelocity deltaSeconds)
    let b := { b with angularVelocity := b.angularVelocity + b.angularAcceleration * deltaSeconds }
    let b := RigidBody.rotate M b (b.angularVelocity * deltaSeconds)
    let linearDecay := M.exp (-deltaSeconds * b.friction)
    let angularDecay := M.exp (-deltaSeconds * b.friction)
    let b := { b with
      linearVelocity := Vec2.mulScalar b.linearVelocity linearDecay
      angularVelocity := b.angularVelocity * angularDecay }
    { b with linearAcceleration := Vec2.zero, angularAcceleration := 0 }

/-- Per-body phase of `PhysicsEngine.step` (gravity, integration, wrap-around);
fixed and sleeping bodies are skipped by the `continue`.  The broad-phase
`quadtree.update` does not mutate the body and is modelled separately. -/
def stepBody (M : MathFns) (gravity deltaSeconds : ℚ) (worldMax : Vec2) (b : RigidBody) :
    RigidBody :=
  if b.fixed || b.sleeping then b
  else
    let b := { b with
      linearVelocity := ⟨b.linearVelocity.x, b.linearVelocity.y + gravity * deltaSeconds⟩ }
    let b := RigidBody.integrate M deltaSeconds b
    let wrapX := if b.bounds.min.x > worldMax.x then -b.bounds.max.x else 0
    let wrapY := if b.bounds.min.y > worldMax.y then -b.bounds.max.y else 0
    let wrapX := if b.bounds.max.x < 0 then worldMax.x - b.bounds.min.x else wrapX
    let wrapY := if b.bounds.max.y < 0 then worldMax.y - b.bounds.min.y else wrapY
    b.translate ⟨wrapX, wrapY⟩

/-- Per body-pair contact point (src/collision/collision.ts, class `Contact`). -/
structure Contact where
  worldPosA : Vec2
  worldPosB : Vec2
  localPosA : Vec2
  localPosB : Vec2
  effectiveMassNormal : ℚ
  effectiveMassTangent : ℚ
  originalRestitutionBias : ℚ
  accumulatedNormalMagnitude : ℚ
  accumulatedTangentMagnitude : ℚ
deriving DecidableEq, Repr

/-- `Contact.updateRestitutionBias(bodyA, bodyB, normal)`. -/
def Contact.updateRestitutionBias (ct : Contact) (bodyA bodyB : RigidBody) (normal : Vec2) :
    Contact :=
  let relativeVelocity :=
    Vec2.sub (bodyB.getVelocityAtPoint ct.localPosB) (bodyA.getVelocityAtPoint ct.localPosA)
  let relativeVelocityDotNormal := Vec2.dot relativeVelocity normal
  if relativeVelocityDotNormal < -(1 / 10) then
    { ct with originalRestitutionBias :=
        -(bodyA.restitution * bodyB.restitution) * relativeVelocityDotNormal }
  else
    { ct with originalRestitutionBias := 0 }

/-- The `Contact` constructor. -/
def mkContact (bodyA bodyB : RigidBody) (worldPosA worldPosB normal tangent : Vec2) : Contact :=
  let localPosA := Vec2.sub worldPosA bodyA.position
  let localPosB := Vec2.sub worldPosB bodyB.position
  let radiusNormalA := Vec2.cross localPosA normal
  let radiusNormalB := Vec2.cross localPosB normal
  let radiusTangentA := Vec2.cross localPosA tangent
  let radiusTangentB := Vec2.cross localPosB tangent
  Contact.updateRestitutionBias
    { worldPosA := worldPosA
      worldPosB := worldPosB
      localPosA := localPosA
      localPosB := localPosB
      effectiveMassNormal := 1 /
        (bodyA.inverseMass + bodyB.inverseMass +
          bodyA.inverseAngularMass * radiusNormalA * radiusNormalA +
          bodyB.inverseAngularMass * radiusNormalB * radiusNormalB)
      effectiveMassTangent := 1 /
        (bodyA.inverseMass + bodyB.inverseMass +
          bodyA.inverseAngularMass * radiusTangentA * radiusTangentA +
          bodyB.inverseAngularMass * radiusTangentB * radiusTangentB)
      originalRestitutionBias := 0
      accumulatedNormalMagnitude := 0
      accumulatedTangentMagnitude := 0 }
    bodyA bodyB normal

/-- Collision manifold (src/collision/collision.ts, class `CollisionManifold`);
the constructor derives `tangent = perpendicular(normal)`. -/
structure CollisionManifold where
  normal : Vec2
  tangent : Vec2
  depth : ℚ
  mtv : Vec2
  contacts : List Contact
deriving DecidableEq, Repr

def mkCollisionManifold (normal mtv : Vec2) (depth : ℚ) (contacts : List Contact) :
    CollisionManifold :=
  { normal := normal
    tangent := Vec2.perpendicular normal
    depth := depth
    mtv := mtv
    contacts := contacts }

/-- Per active pair (src/collision/collision.ts, class `Collision`).  The JS
object holds references `bodyA`/`bodyB`; here bodies live in a map keyed by
their `id`, and the collision stores the two keys. -/
structure Collision where
  idA : ℕ
  idB : ℕ
  restitution : ℚ
  friction : ℚ
  manifold : CollisionManifold
deriving DecidableEq, Repr

def mkCollision (bodyA bodyB : RigidBody) (manifold : CollisionManifold) : Collision :=
  { idA := bodyA.id
    idB := bodyB.id
    restitution := bodyA.restitution * bodyB.restitution
    friction := (bodyA.friction + bodyB.friction) * (1 / 2)
    manifold := manifold }

/-- Body store: JS object references, keyed by body id. -/
def Bodies : Type := ℕ → RigidBody

/-- Point-wise update of the body store (one object mutated in place). -/
def updBody (m : Bodies) (i : ℕ) (b : RigidBody) : Bodies :=
  fun j => if j = i then b else m j

/-- `Collision.solvePositionLinearOnly()`. -/
def Collision.solvePositionLinearOnly (c : Collision) (bodies : Bodies) : Bodies :=
  let bodyA := bodies c.idA
  let bodyB := bodies c.idB
  let effectiveMass := 1 / (bodyA.inverseMass + bodyB.inverseMass)
  let correction := Vec2.mulScalar c.manifold.normal (max 0 (c.manifold.depth - 1 / 10))
  let bodies := updBody bodies c.idA
    (bodyA.translate (Vec2.mulScalar correction (-effectiveMass * bodyA.inverseMass)))
  updBody bodies c.idB
    ((bodies c.idB).translate (Vec2.mulScalar correction (effectiveMass * bodyB.inverseMass)))

/-- `Collision.applyAccumulatedImpulses()` (warm start). -/
def Collision.applyAccumulatedImpulses (c : Collision) (bodies : Bodies) : Bodies :=
  c.manifold.contacts.foldl
    (fun bodies ct =>
      let impulse := Vec2.add
        (Vec2.mulScalar c.manifold.normal ct.accumulatedNormalMagnitude)
        (Vec2.mulScalar c.manifold.tangent ct.accumulatedTangentMagnitude)
      let bodies := updBody bodies c.idA
        ((bodies c.idA).applyImpulse (Vec2.neg impulse) ct.localPosA)
      updBody bodies c.idB ((bodies c.idB).applyImpulse impulse ct.localPosB))
    bodies

/-- The normal-impulse loop of `Collision.solveVelocity()`. -/
def solveVelocityNormalPass (c : Collision) (st : Bodies × List Contact) (cts : List Contact) :
    Bodies × List Contact :=
  cts.foldl
    (fun (st : Bodies × List Contact) ct =>
      let (bodies, done) := st
      let bodyA := bodies c.idA
      let bodyB := bodies c.idB
      let relativeVelocity :=
        Vec2.sub (bodyB.getVelocityAtPoint ct.localPosB) (bodyA.getVelocityAtPoint ct.localPosA)
      let relativeVelocityDotNormal := Vec2.dot relativeVelocity c.manifold.normal
      let impulseMagnitude :=
        -(relativeVelocityDotNormal - ct.originalRestitutionBias) * ct.effectiveMassNormal
      let newAccumulatedMagnitude := max (ct.accumulatedNormalMagnitude + impulseMagnitude) 0
      let newImpulse := newAccumulatedMagnitude - ct.accumulatedNormalMagnitude
      let ct := { ct with accumulatedNormalMagnitude := newAccumulatedMagnitude }
      let bodies := updBody bodies c.idA
        (bodyA.applyImpulse (Vec2.mulScalar c.manifold.normal (-newImpulse)) ct.localPosA)
      let bodies := updBody bodies c.idB
        ((bodies c.idB).applyImpulse (Vec2.mulScalar c.manifold.normal newImpulse) ct.localPosB)
      (bodies, done ++ [ct]))
    st

/-- The tangent-impulse loop of `Collision.solveVelocity()`. -/
def solveVelocityTangentPass (c : Collision) (st : Bodies × List Contact) (cts : List Contact) :
    Bodies × List Contact :=
  cts.foldl
    (fun (st : Bodies × List Contact) ct =>
      let (bodies, done) := st
      let bodyA := bodies c.idA
      let bodyB := bodies c.idB
      let relativeVelocity :=
        Vec2.sub (bodyB.getVelocityAtPoint ct.localPosB) (bodyA.getVelocityAtPoint ct.localPosA)
      let relativeVelocityDotTangent := Vec2.dot relativeVelocity c.manifold.tangent
      let impulseMagnitude := -relativeVelocityDotTangent * ct.effectiveMassTangent
      let staticFrictionLimit := ct.accumulatedNormalMagnitude * c.friction
      let newAccumulatedMagnitude := clamp
        (ct.accumulatedTangentMagnitude + impulseMagnitude)
        (-staticFrictionLimit) staticFrictionLimit
      let newImpulse := newAccumulatedMagnitude - ct.accumulatedTangentMagnitude
      let ct := { ct with accumulatedTangentMagnitude := newAccumulatedMagnitude }
      let bodies := updBody bodies c.idA
        (bodyA.applyImpulse (Vec2.mulScalar c.manifold.tangent (-newImpulse)) ct.localPosA)
      let bodies := updBody bodies c.idB
        ((bodies c.idB).applyImpulse (Vec2.mulScalar c.manifold.tangent newImpulse) ct.localPosB)
      (bodies, done ++ [ct]))
    st

/-- `Collision.solveVelocity()`: normal pass over all contacts, then tangent
pass over the (already updated) contacts. -/
def Collision.solveVelocity (c : Collision) (bodies : Bodies) : Bodies × Collision :=
  let (bodies, contacts) := solveVelocityNormalPass c (bodies, []) c.manifold.contacts
  let (bodies, contacts) := solveVelocityTangentPass c (bodies, []) contacts
  (bodies, { c with manifold := { c.manifold with contacts := contacts } })

/-- Engine solver state: the body store plus the active-collision list (the
`Map` values in insertion order). -/
structure World where
  bodies : Bodies
  collisions : List Collision

/-- First loop of `PhysicsEngine.resolveCollisions`: per collision, linear
position correction, warm start, and the restitution-bias refresh of every
contact. -/
def resolvePrePass (w : World) : World :=
  let st := w.collisions.foldl
    (fun (st : Bodies × List Collision) c =>
      let (bodies, done) := st
      let bodies := c.solvePositionLinearOnly bodies
      let bodies := c.applyAccumulatedImpulses bodies
      let contacts := c.manifold.contacts.map
        (fun ct => ct.updateRestitutionBias (bodies c.idA) (bodies c.idB) c.manifold.normal)
      (bodies, done ++ [{ c with manifold := { c.manifold with contacts := contacts } }]))
    (w.bodies, [])
  ⟨st.1, st.2⟩

/-- One velocity iteration: `collision.solveVelocity()` over all collisions. -/
def velocityPass (w : World) : World :=
  let st := w.collisions.foldl
    (fun (st : Bodies × List Collision) c =>
      let (bodies, c') := c.solveVelocity st.1
      (bodies, st.2 ++ [c']))
    (w.bodies, [])
  ⟨st.1, st.2⟩

/-- The `velocityIterations` loop. -/
def iterVelocity : ℕ → World → World
  | 0, w => w
  | n + 1, w => iterVelocity n (velocityPass w)

/-- `PhysicsEngine.resolveCollisions()` with `velocityIterations = iters`. -/
def resolveCollisions (iters : ℕ) (w : World) : World :=
  iterVelocity iters (resolvePrePass w)

/-! ### Engine driver counters (`PhysicsEngine.update`) -/

/-- The driver's time accounting state.  `stepsElapsed` is an integer count
stored in a JS number. -/
structure EngineTime where
  timeElapsed : ℚ
  stepsElapsed : ℤ
deriving DecidableEq, Repr

/-- `PhysicsEngine.update(deltaSeconds)` acting on an abstract world `σ` with
step function `step`: it computes `deltaSteps` from the *current*
`timeElapsed`, runs `step` that many times, measures wall time (not modelled),
then advances `timeElapsed` by `deltaSeconds` and `stepsElapsed` by
`deltaSteps`, and returns `deltaSteps`. -/
def engineUpdate {σ : Type} (step : σ → σ) (fixedTimeStep : ℚ) (w : σ) (t : EngineTime)
    (deltaSeconds : ℚ) : σ × EngineTime × ℤ :=
  let deltaSteps : ℤ := ⌊t.timeElapsed / fixedTimeStep⌋ - t.stepsElapsed
  let w := step^[deltaSteps.toNat] w
  (w, ⟨t.timeElapsed + deltaSeconds, t.stepsElapsed + deltaSteps⟩, deltaSteps)

/-! ### Collision pair key under IEEE-754 double arithmetic -/

/-- Fuel-driven binary logarithm: `log2fuel fuel n = ⌊log₂ n⌋` whenever
`n < 2 ^ fuel` (structural recursion on the fuel keeps it kernel-reducible). -/
def log2fuel : ℕ → ℕ → ℕ
  | 0, _ => 0
  | fuel + 1, n => if 2 ≤ n then log2fuel fuel (n / 2) + 1 else 0

/-- Round-to-nearest, ties-to-even of a natural number to a 53-bit significand:
the value a JS `number` actually stores for an integer computation result (for
magnitudes far below the overflow threshold; 128 bits of log fuel are ample
for the key values here). -/
def f64round (n : ℕ) : ℕ :=
  if n < 2 ^ 53 then n
  else
    let e := log2fuel 128 n - 52
    let q := n / 2 ^ e
    let r := n % 2 ^ e
    let h := 2 ^ (e - 1)
    let q' := if r < h then q else if h < r then q + 1 else if q % 2 = 0 then q else q + 1
    q' * 2 ^ e

/-- `this.id = bodyA.id * 1e10 + bodyB.id` (Collision constructor), under
float64 semantics: the product rounds, then the sum rounds. -/
def collisionId (idA idB : ℕ) : ℕ :=
  f64round (f64round (idA * 10 ^ 10) + idB)

/-! ### Island building during the collision pass -/

/-- Step-scoped island state built while `PhysicsEngine.checkCollisions`
confirms pairs.  Islands live in an arena indexed by creation order
(`numIslands` is the next fresh index); `islandOf b` models the `body.island`
back-pointer and `islandBodies i` the `Island.bodies` set, for the body with
id `b`.  `fixed` gives each body's fixed flag (it never changes during the
pass). -/
structure IslandSt where
  islandOf : ℕ → Option ℕ
  islandBodies : ℕ → Finset ℕ
  numIslands : ℕ

/-- The cleared state at the start of a step (`body.island = undefined` for
all bodies, empty island list). -/
def IslandSt.clear : IslandSt :=
  { islandOf := fun _ => none, islandBodies := fun _ => ∅, numIslands := 0 }

/-- `RigidBody.addToIsland(island)`: a fixed body is never added. -/
def IslandSt.addToIsland (fixed : ℕ → Bool) (st : IslandSt) (b : ℕ) (i : ℕ) : IslandSt :=
  if fixed b then st
  else
    { st with
      islandOf := fun x => if x = b then some i else st.islandOf x
      islandBodies := fun j => if j = i then insert b (st.islandBodies i) else st.islandBodies j }

/-- `Island.merge(other)` called as `bodyA.island.merge(bodyB.island)`: every
body of island `ib` is added to island `ia` and repointed, then `ib` is
cleared. -/
def IslandSt.merge (st : IslandSt) (ia ib : ℕ) : IslandSt :=
  { st with
    islandOf := fun x => if x ∈ st.islandBodies ib then some ia else st.islandOf x
    islandBodies := fun j =>
      if j = ia then st.islandBodies ia ∪ st.islandBodies ib
      else if j = ib then ∅ else st.islandBodies j }

/-- Island management for one confirmed pair in `PhysicsEngine.checkCollisions`. -/
def processPair (fixed : ℕ → Bool) (st : IslandSt) (p : ℕ × ℕ) : IslandSt :=
  match st.islandOf p.1, st.islandOf p.2 with
  | some ia, some ib => if ia = ib then st else st.merge ia ib
  | some ia, none => st.addToIsland fixed p.2 ia
  | none, some ib => st.addToIsland fixed p.1 ib
  | none, none =>
      let ni := st.numIslands
      let st := st.addToIsland fixed p.1 ni
      let st := st.addToIsland fixed p.2 ni
      { st with numIslands := st.numIslands + 1 }

/-- The island state at the end of the collision pass, given the confirmed
pairs in confirmation order. -/
def runIslandPass (fixed : ℕ → Bool) (pairs : List (ℕ × ℕ)) : IslandSt :=
  pairs.foldl (processPair fixed) IslandSt.clear

/-! ### EPA (expanding polytope algorithm), src/collision/gjk.ts -/

/-- One Minkowski-difference support entry: the two shape support points and
their difference (class `MinkowskiDiff`).  The shapes' `getFurthestPoint`
functions are abstract parameters `sA`, `sB`. -/
structure MinkowskiDiff where
  a : Vec2
  b : Vec2
  result : Vec2
deriving DecidableEq, Repr

def mkMinkowskiDiff (sA sB : Vec2 → Vec2) (direction : Vec2) : MinkowskiDiff :=
  { a := sA direction
    b := sB (Vec2.neg direction)
    result := Vec2.sub (sA direction) (sB (Vec2.neg direction)) }

/-- Result record of `EPA` (class `EpaResult`): tangent is derived as
`perpendicular(normal)` by the constructor. -/
structure EpaResult where
  normal : Vec2
  tangent : Vec2
  mtv : Vec2
  depth : ℚ
  worldContactA : Vec2
  worldContactB : Vec2
deriving DecidableEq, Repr

def mkEpaResult (normal mtv : Vec2) (depth : ℚ) (worldContactA worldContactB : Vec2) :
    EpaResult :=
  { normal := normal
    tangent := Vec2.perpendicular normal
    mtv := mtv
    depth := depth
    worldContactA := worldContactA
    worldContactB := worldContactB }

/-- The inner edge scan of an EPA iteration: over every polytope edge
`(i, (i+1) % n)` compute the outward normal (`tripleCross`, falling back to
`perpendicular` when degenerate, then normalised) and the clamped distance
`max 0 (normal · a)`, tracking the strictly smallest distance.  The scan state
is `(minIndexA, minIndexB, minNormal, minDistance)` seeded with
`(0, 0, 0, Number.MAX_VALUE)`. -/
def epaScan (sq : ℚ → ℚ) (simplex : List MinkowskiDiff) : ℕ × ℕ × Vec2 × ℚ :=
  (List.range simplex.length).foldl
    (fun acc i =>
      let j := (i + 1) % simplex.length
      let a := (simplex.getD i ⟨Vec2.zero, Vec2.zero, Vec2.zero⟩).result
      let ab := Vec2.sub (simplex.getD j ⟨Vec2.zero, Vec2.zero, Vec2.zero⟩).result a
      let normal := Vec2.tripleCross ab a ab
      let normal := if normal.isZero then Vec2.perpendicular ab else normal
      let normal := normal.normalise sq
      let distance := max 0 (Vec2.dot normal a)
      if distance < acc.2.2.2 then (i, j, normal, distance) else acc)
    (0, 0, Vec2.zero, maxValue)

/-- The contact-witness computation of a terminating EPA iteration. -/
def epaContactA (simplex : List MinkowskiDiff) (minIndexA minIndexB : ℕ) : Vec2 :=
  let mdA := simplex.getD minIndexA ⟨Vec2.zero, Vec2.zero, Vec2.zero⟩
  let mdB := simplex.getD minIndexB ⟨Vec2.zero, Vec2.zero, Vec2.zero⟩
  if (Vec2.sub mdB.a mdA.a).magnitudeSquared < 1 then mdA.a
  else
    let edge := Vec2.sub mdB.result mdA.result
    let t := -(Vec2.dot mdA.result edge) / edge.magnitudeSquared
    Vec2.add mdA.a (edge.mulScalar t)

/-- One EPA iteration body applied to the current polytope, with remaining
`fuel` iterations; `EPA` itself starts with fuel 100 and `throw`s (modelled as
`Except.error`) when the fuel runs out. -/
def epaLoop (sA sB : Vec2 → Vec2) (sq : ℚ → ℚ) :
    ℕ → List MinkowskiDiff → Except String EpaResult
  | 0, _ => .error "EPA failed to converge"
  | fuel + 1, simplex =>
      let scan := epaScan sq simplex
      let minIndexA := scan.1
      let minIndexB := scan.2.1
      let minNormal := scan.2.2.1
      let minDistance := scan.2.2.2
      let point := mkMinkowskiDiff sA sB minNormal
      let distance := Vec2.dot minNormal point.result
      if |distance - minDistance| < 1 / 1000 then
        let mtv := Vec2.mulScalar minNormal distance
        let contactA := epaContactA simplex minIndexA minIndexB
        .ok (mkEpaResult minNormal mtv distance contactA (Vec2.sub contactA mtv))
      else
        epaLoop sA sB sq fuel (simplex.insertIdx (minIndexA + 1) point)

/-- `EPA(shapeA, shapeB, simplex)`: at most 100 iterations. -/
def EPA (sA sB : Vec2 → Vec2) (sq : ℚ → ℚ) (simplex : List MinkowskiDiff) :
    Except String EpaResult :=
  epaLoop sA sB sq 100 simplex

/-! ### Broad-phase quadtree (lib/collections/quadtree.ts)

A tree node is identified by its path of quadrant indices from the root.  The
AABB geometry (node bounds, child bounds) drives only *insertion*; `remove`
and `prune`, which the claims are about, never consult it, so the embedding
keeps the item lists and the child structure.  A JS `undefined` child slot is
the `nil` constructor. -/

/-- `lib/util.ts` / quadtree-local `swapRemove(array, index)`: swap the slot
with the last element and pop.  (The JS destructuring writes the old slot
value into the last position before the pop removes it again.) -/
def swapRemove {α : Type} (l : List α) (i : ℕ) : List α :=
  match l.getLast? with
  | none => []
  | some last => (l.set i last).dropLast

/-- A quadtree node: its own item list and four optional children. -/
inductive QTree (α : Type) where
  | nil : QTree α
  | node (items : List α) (c0 c1 c2 c3 : QTree α) : QTree α
deriving DecidableEq

/-- The `items` list of a node (`[]` for an absent node). -/
def QTree.items {α : Type} : QTree α → List α
  | .nil => []
  | .node its _ _ _ _ => its

/-- `children[i]`. -/
def QTree.child {α : Type} : QTree α → Fin 4 → QTree α
  | .nil, _ => .nil
  | .node _ c0 _ _ _, 0 => c0
  | .node _ _ c1 _ _, 1 => c1
  | .node _ _ _ c2 _, 2 => c2
  | .node _ _ _ _ c3, 3 => c3

/-- Replace `children[i]` (no effect on an absent node). -/
def QTree.setChild {α : Type} : QTree α → Fin 4 → QTree α → QTree α
  | .nil, _, _ => .nil
  | .node its _ c1 c2 c3, 0, c => .node its c c1 c2 c3
  | .node its c0 _ c2 c3, 1, c => .node its c0 c c2 c3
  | .node its c0 c1 _ c3, 2, c => .node its c0 c1 c c3
  | .node its c0 c1 c2 _, 3, c => .node its c0 c1 c2 c

/-- Replace the own item list of a node. -/
def QTree.setItems {α : Type} : QTree α → List α → QTree α
  | .nil, _ => .nil
  | .node _ c0 c1 c2 c3, its => .node its c0 c1 c2 c3

/-- The node reached by following a quadrant path. -/
def QTree.at {α : Type} (t : QTree α) : List (Fin 4) → QTree α
  | [] => t
  | i :: p => (t.child i).at p

/-- Replace the subtree at a path (no effect along an absent path). -/
def QTree.setAt {α : Type} (t : QTree α) : List (Fin 4) → QTree α → QTree α
  | [], s => s
  | i :: p, s => t.setChild i ((t.child i).setAt p s)

/-- `QuadTreeNode.getAll`: own items first, then children in order. -/
def QTree.allItems {α : Type} : QTree α → List α
  | .nil => []
  | .node its c0 c1 c2 c3 =>
      its ++ (c0.allItems ++ (c1.allItems ++ (c2.allItems ++ c3.allItems)))

/-- `QuadTreeNode.prune()`: recursively drop every child subtree that reports
itself prunable, and report whether this node is itself prunable (no items
and no surviving children).  An absent child is skipped by the loop, which is
the same as treating it as prunable and re-storing `undefined`. -/
def QTree.prune {α : Type} : QTree α → QTree α × Bool
  | .nil => (.nil, true)
  | .node its c0 c1 c2 c3 =>
      let r0 := c0.prune
      let r1 := c1.prune
      let r2 := c2.prune
      let r3 := c3.prune
      let k0 := if r0.2 then .nil else r0.1
      let k1 := if r1.2 then .nil else r1.1
      let k2 := if r2.2 then .nil else r2.1
      let k3 := if r3.2 then .nil else r3.1
      let hasChildren := !r0.2 || !r1.2 || !r2.2 || !r3.2
      (.node its k0 k1 k2 k3, its.isEmpty && !hasChildren)

/-- The quadtree with its `itemLocations` map from item identity to
`(node, indexInNode)`; the node is identified by its path. -/
structure QuadTree (α : Type) where
  root : QTree α
  itemLocations : α → Option (List (Fin 4) × ℕ)

/-- `QuadTree.remove(item)`: look up the location; swap-remove from the node's
item list; delete the map entry; if a tail item was swapped into the slot,
update its mapping; prune the owning node's subtree.  Returns `false` when the
item is unknown. -/
def QuadTree.remove {α : Type} [DecidableEq α] (qt : QuadTree α) (x : α) : QuadTree α × Bool :=
  match qt.itemLocations x with
  | none => (qt, false)
  | some (p, i) =>
      let items' := swapRemove (qt.root.at p).items i
      let locs : α → Option (List (Fin 4) × ℕ) :=
        fun y => if y = x then none else qt.itemLocations y
      let locs :=
        if i < items'.length then
          fun y => if y = items'.getD i x then some (p, i) else locs y
        else locs
      let root := qt.root.setAt p ((qt.root.at p).setItems items')
      let root := root.setAt p ((root.at p).prune).1
      ({ root := root, itemLocations := locs }, true)

/-- Well-formedness of the location map: every mapped item is at its recorded
slot, and every stored item is mapped to its own slot. -/
def QuadTree.WF {α : Type} (qt : QuadTree α) : Prop :=
  (∀ x p i, qt.itemLocations x = some (p, i) →
    ∃ h : i < ((qt.root.at p).items).length, ((qt.root.at p).items).get ⟨i, h⟩ = x) ∧
  (∀ p i (h : i < ((qt.root.at p).items).length),
    qt.itemLocations (((qt.root.at p).items).get ⟨i, h⟩) = some (p, i))

/-- `PhysicsEngine.removeBody(body)` acting on the engine's body array (the
broad-phase call `quadtree.remove(body)` is `QuadTree.remove`).  When the body
is present, `indexOf` finds it and the destructuring swap moves the last body
into its slot before the pop.  When it is absent, `indexOf` returns `-1`: the
destructuring then writes the last element to the `-1` property (which is not
an array slot) and `undefined` into the last slot, and `pop` removes that
slot — so the array still loses its last element. -/
def removeBodyList {α : Type} [DecidableEq α] (bodies : List α) (b : α) : List α :=
  if b ∈ bodies then
    match bodies.getLast? with
    | none => []
    | some last => (bodies.set (bodies.indexOf b) last).dropLast
  else bodies.dropLast

/-! ## Witness fixtures -/

/-- A small concrete non-fixed body for witness instantiations. -/
def bodyW : RigidBody :=
  { id := 0, timeStill := 0, sleeping := false, fixed := false
    collider := [⟨0, 0⟩, ⟨1, 0⟩, ⟨0, 1⟩]
    bounds := ⟨⟨0, 0⟩, ⟨1, 1⟩⟩
    position := ⟨0, 0⟩, rotation := 0
    restitution := 1 / 2, friction := 1 / 2, density := 1
    mass := 1, inverseMass := 1
    linearAcceleration := ⟨0, 0⟩, linearVelocity := ⟨0, 0⟩
    angularMass := 1, inverseAngularMass := 1
    angularAcceleration := 0, angularVelocity := 0 }

/-- A concrete fixed body for witness instantiations. -/
def bodyFixedW : RigidBody :=
  { bodyW with id := 1, fixed := true, inverseMass := 0, inverseAngularMass := 0 }

def bodiesW : Bodies := fun _ => bodyW

def contactW : Contact :=
  { worldPosA := ⟨0, 0⟩, worldPosB := ⟨0, 0⟩, localPosA := ⟨0, 0⟩, localPosB := ⟨0, 0⟩
    effectiveMassNormal := 1, effectiveMassTangent := 1
    originalRestitutionBias := 0
    accumulatedNormalMagnitude := 0, accumulatedTangentMagnitude := 0 }

def collisionW : Collision :=
  { idA := 0, idB := 1, restitution := 1 / 4, friction := 1 / 2
    manifold := mkCollisionManifold ⟨0, 1⟩ ⟨0, 1⟩ 1 [contactW] }

def mathFnsW : MathFns := ⟨fun _ => 0, fun _ => 1, fun _ => 1⟩

/-! ## C1 — `PhysicsEngine.update(dt)` accounting -/

/-- C1 counterexample: starting from `timeElapsed = 0`, `stepsElapsed = 0`
with `fixedTimeStep = 1`, a call `update(1)` runs the step function zero times
and returns 0, yet `floor(timeElapsed / fixedTimeStep) − stepsElapsed`
evaluated *after* the advance of `timeElapsed` equals 1.  So the substep count
is not the post-advance quantity the claim states. -/
theorem engineUpdate_post_advance_false :
    (engineUpdate Nat.succ 1 0 ⟨0, 0⟩ 1).1 = 0 ∧
    (engineUpdate Nat.succ 1 0 ⟨0, 0⟩ 1).2.2 = 0 ∧
    (engineUpdate Nat.succ 1 0 ⟨0, 0⟩ 1).2.1.timeElapsed = 1 ∧
    ⌊(engineUpdate Nat.succ 1 0 ⟨0, 0⟩ 1).2.1.timeElapsed / 1⌋ - (0 : ℤ) = 1 ∧
    (engineUpdate Nat.succ 1 0 ⟨0, 0⟩ 1).2.2 ≠
      ⌊(engineUpdate Nat.succ 1 0 ⟨0, 0⟩ 1).2.1.timeElapsed / 1⌋ - (0 : ℤ) := by
  unfold engineUpdate
  norm_num

/-- C1 (amended): `update(dt)` computes
`deltaSteps = floor(timeElapsed / fixedTimeStep) − stepsElapsed` from the
state *before* `timeElapsed` is advanced, runs `step` exactly `deltaSteps`
times (as a non-negative count), advances `timeElapsed` by `dt` and
`stepsElapsed` by `deltaSteps` (making it `floor(timeElapsed/fixedTimeStep)`
pre-advance), and returns `deltaSteps`. -/
theorem engineUpdate_spec {σ : Type} (step : σ → σ) (fts : ℚ) (w : σ) (t : EngineTime)
    (dt : ℚ) :
    (engineUpdate step fts w t dt).2.2 = ⌊t.timeElapsed / fts⌋ - t.stepsElapsed ∧
    (engineUpdate step fts w t dt).1 =
      step^[(⌊t.timeElapsed / fts⌋ - t.stepsElapsed).toNat] w ∧
    (engineUpdate step fts w t dt).2.1.timeElapsed = t.timeElapsed + dt ∧
    (engineUpdate step fts w t dt).2.1.stepsElapsed = ⌊t.timeElapsed / fts⌋ := by
  refine ⟨rfl, rfl, rfl, ?_⟩
  show t.stepsElapsed + (⌊t.timeElapsed / fts⌋ - t.stepsElapsed) = ⌊t.timeElapsed / fts⌋
  omega

/-! ## C3 — restitution-bias refresh -/

/-- C3: `Contact.updateRestitutionBias` computes the closing normal velocity
`vn = normal · (velAtPoint(B, rB) − velAtPoint(A, rA))`; when `vn < −0.1` it
stores `−(restitutionA · restitutionB) · vn` and otherwise stores 0, leaving
every other contact field unchanged. -/
theorem updateRestitutionBias_spec (ct : Contact) (bodyA bodyB : RigidBody) (normal : Vec2) :
    ct.updateRestitutionBias bodyA bodyB normal =
      { ct with originalRestitutionBias :=
          if Vec2.dot (Vec2.sub (bodyB.getVelocityAtPoint ct.localPosB)
              (bodyA.getVelocityAtPoint ct.localPosA)) normal < -(1 / 10) then
            -(bodyA.restitution * bodyB.restitution) *
              Vec2.dot (Vec2.sub (bodyB.getVelocityAtPoint ct.localPosB)
                (bodyA.getVelocityAtPoint ct.localPosA)) normal
          else 0 } := by
  unfold Contact.updateRestitutionBias
  dsimp only
  split_ifs <;> rfl

/-! ## C4 — linear-only position correction -/

/-- C4: `Collision.solvePositionLinearOnly` translates body A by
`−k·invMassA·c` and body B by `+k·invMassB·c`, with
`k = 1 / (invMassA + invMassB)` and `c = normal · max(0, depth − 0.1)`; the
rotation angles and collider orientations of both bodies are unchanged (the
colliders are purely translated), and no other body is touched. -/
theorem solvePositionLinearOnly_spec (c : Collision) (bodies : Bodies)
    (hne : c.idA ≠ c.idB) :
    ((c.solvePositionLinearOnly bodies) c.idA =
      (bodies c.idA).translate
        (Vec2.mulScalar (Vec2.mulScalar c.manifold.normal (max 0 (c.manifold.depth - 1 / 10)))
          (-(1 / ((bodies c.idA).inverseMass + (bodies c.idB).inverseMass)) *
            (bodies c.idA).inverseMass))) ∧
    ((c.solvePositionLinearOnly bodies) c.idB =
      (bodies c.idB).translate
        (Vec2.mulScalar (Vec2.mulScalar c.manifold.normal (max 0 (c.manifold.depth - 1 / 10)))
          (1 / ((bodies c.idA).inverseMass + (bodies c.idB).inverseMass) *
            (bodies c.idB).inverseMass))) ∧
    ((c.solvePositionLinearOnly bodies) c.idA).rotation = (bodies c.idA).rotation ∧
    ((c.solvePositionLinearOnly bodies) c.idB).rotation = (bodies c.idB).rotation ∧
    ((c.solvePositionLinearOnly bodies) c.idA).collider =
      polyTranslate (bodies c.idA).collider
        (Vec2.mulScalar (Vec2.mulScalar c.manifold.normal (max 0 (c.manifold.depth - 1 / 10)))
          (-(1 / ((bodies c.idA).inverseMass + (bodies c.idB).inverseMass)) *
            (bodies c.idA).inverseMass)) ∧
    ((c.solvePositionLinearOnly bodies) c.idB).collider =
      polyTranslate (bodies c.idB).collider
        (Vec2.mulScalar (Vec2.mulScalar c.manifold.normal (max 0 (c.manifold.depth - 1 / 10)))
          (1 / ((bodies c.idA).inverseMass + (bodies c.idB).inverseMass) *
            (bodies c.idB).inverseMass)) ∧
    (∀ j, j ≠ c.idA → j ≠ c.idB → (c.solvePositionLinearOnly bodies) j = bodies j) := by
  unfold Collision.solvePositionLinearOnly
  refine ⟨?_, ?_, ?_, ?_, ?_, ?_, ?_⟩
  case _ => simp [updBody, hne, Ne.symm hne]
  case _ => simp [updBody, hne, Ne.symm hne]
  case _ => simp [updBody, hne, Ne.symm hne, RigidBody.translate]
  case _ => simp [updBody, hne, Ne.symm hne, RigidBody.translate]
  case _ => simp [updBody, hne, Ne.symm hne, RigidBody.translate]
  case _ => simp [updBody, hne, Ne.symm hne, RigidBody.translate]
  case _ =>
    intro j hjA hjB
    simp [updBody, hjA, hjB]

/-- C4 witness: the correction theorem instantiated at the concrete fixture
collision and body store. -/
theorem solvePositionLinearOnly_spec_witness :
    collisionW.idA ≠ collisionW.idB ∧
    ((collisionW.solvePositionLinearOnly bodiesW) collisionW.idA).rotation =
      (bodiesW collisionW.idA).rotation ∧
    ((collisionW.solvePositionLinearOnly bodiesW) collisionW.idB).rotation =
      (bodiesW collisionW.idB).rotation := by
  refine ⟨by decide, ?_, ?_⟩
  · exact (solvePositionLinearOnly_spec collisionW bodiesW (by decide)).2.2.1
  · exact (solvePositionLinearOnly_spec collisionW bodiesW (by decide)).2.2.2.1

/-! ## C9 — collision pair key under float64 -/

/-- C9 counterexample: the pairs (9999999997, 9999999998) and
(9999999997, 9999999999) both satisfy `idA < idB < 10^10`, are different, yet
produce the same `id = idA·1e10 + idB` under the program's float64 number
arithmetic: the key is not injective over the full claimed range. -/
theorem collisionId_not_injective :
    collisionId 9999999997 9999999998 = collisionId 9999999997 9999999999 ∧
    (9999999997 : ℕ) < 9999999998 ∧ (9999999998 : ℕ) < 10 ^ 10 ∧
    (9999999997 : ℕ) < 9999999999 ∧ (9999999999 : ℕ) < 10 ^ 10 ∧
    (9999999998 : ℕ) ≠ 9999999999 := by
  refine ⟨?_, by norm_num, by norm_num, by norm_num, by norm_num, by norm_num⟩
  decide

/-- C9 (amended): the key `idA·1e10 + idB` with `idA < idB < 10^10` is
injective for every pair whose key value stays below 2^53, where float64
arithmetic is exact (equivalently: it is collision-free in exact integer
arithmetic; beyond 2^53 rounding breaks it). -/
theorem collisionId_injective_below_2_53 (a b a' b' : ℕ)
    (hab : a < b) (hb : b < 10 ^ 10) (hab' : a' < b') (hb' : b' < 10 ^ 10)
    (hs : a * 10 ^ 10 + b < 2 ^ 53) (hs' : a' * 10 ^ 10 + b' < 2 ^ 53)
    (heq : collisionId a b = collisionId a' b') : a = a' ∧ b = b' := by
  have hexact : ∀ n : ℕ, n < 2 ^ 53 → f64round n = n := by
    intro n hn
    unfold f64round
    rw [if_pos hn]
  have h1 : a * 10 ^ 10 < 2 ^ 53 := lt_of_le_of_lt (Nat.le_add_right _ _) hs
  have h1' : a' * 10 ^ 10 < 2 ^ 53 := lt_of_le_of_lt (Nat.le_add_right _ _) hs'
  have e1 : collisionId a b = a * 10 ^ 10 + b := by
    unfold collisionId
    rw [hexact _ h1, hexact _ hs]
  have e1' : collisionId a' b' = a' * 10 ^ 10 + b' := by
    unfold collisionId
    rw [hexact _ h1', hexact _ hs']
  rw [e1, e1'] at heq
  constructor <;> omega

/-- C9 witness: the injectivity theorem applied at a concrete in-range pair. -/
theorem collisionId_injective_below_2_53_witness :
    (1 : ℕ) < 2 ∧ (2 : ℕ) < 10 ^ 10 ∧ 1 * 10 ^ 10 + 2 < 2 ^ 53 ∧
    collisionId 1 2 = collisionId 1 2 ∧ (1 : ℕ) = 1 ∧ (2 : ℕ) = 2 :=
  ⟨by norm_num, by norm_num, by norm_num, rfl,
    collisionId_injective_below_2_53 1 2 1 2 (by norm_num) (by norm_num) (by norm_num)
      (by norm_num) (by norm_num) (by norm_num) rfl⟩

/-! ## C5 — fixed bodies: inverse masses and immobility -/

/-- Two body states agree on both inverse masses. -/
def sameMM (b b' : RigidBody) : Prop :=
  b'.inverseMass = b.inverseMass ∧ b'.inverseAngularMass = b.inverseAngularMass

theorem sameMM_rfl (b : RigidBody) : sameMM b b := ⟨rfl, rfl⟩

theorem sameMM_trans {a b c : RigidBody} (h1 : sameMM a b) (h2 : sameMM b c) : sameMM a c :=
  ⟨h2.1.trans h1.1, h2.2.trans h1.2⟩

theorem translate_sameMM (b : RigidBody) (δ : Vec2) : sameMM b (b.translate δ) := ⟨rfl, rfl⟩

theorem rotate_sameMM (M : MathFns) (b : RigidBody) (δ : ℚ) :
    sameMM b (RigidBody.rotate M b δ) := ⟨rfl, rfl⟩

theorem applyForce_sameMM (b : RigidBody) (f r : Vec2) : sameMM b (b.applyForce f r) :=
  ⟨rfl, rfl⟩

theorem applyImpulse_sameMM (b : RigidBody) (i r : Vec2) : sameMM b (b.applyImpulse i r) :=
  ⟨rfl, rfl⟩

theorem integrate_sameMM (M : MathFns) (dt : ℚ) (b : RigidBody) :
    sameMM b (RigidBody.integrate M dt b) := by
  unfold RigidBody.integrate
  split
  · exact sameMM_rfl b
  · exact ⟨rfl, rfl⟩

theorem stepBody_sameMM (M : MathFns) (g dt : ℚ) (wm : Vec2) (b : RigidBody) :
    sameMM b (stepBody M g dt wm b) := by
  unfold stepBody
  split
  · exact sameMM_rfl b
  · dsimp only
    refine sameMM_trans ?_ (translate_sameMM _ _)
    refine sameMM_trans ?_ (integrate_sameMM M dt _)
    exact ⟨rfl, rfl⟩

theorem updBody_sameMM {m : Bodies} {i : ℕ} {b : RigidBody} (h : sameMM (m i) b) :
    ∀ j, sameMM (m j) ((updBody m i b) j) := by
  intro j
  unfold updBody
  split
  · rename_i hj
    subst hj
    exact h
  · exact sameMM_rfl _

theorem solvePositionLinearOnly_sameMM (c : Collision) (m : Bodies) :
    ∀ j, sameMM (m j) ((c.solvePositionLinearOnly m) j) := by
  intro j
  unfold Collision.solvePositionLinearOnly
  exact sameMM_trans
    (updBody_sameMM (translate_sameMM _ _) j)
    (updBody_sameMM (translate_sameMM _ _) j)

theorem applyAccumulatedImpulses_sameMM (c : Collision) (m : Bodies) :
    ∀ j, sameMM (m j) ((c.applyAccumulatedImpulses m) j) := by
  unfold Collision.applyAccumulatedImpulses
  induction c.manifold.contacts generalizing m with
  | nil => exact fun j => sameMM_rfl _
  | cons ct cts ih =>
      intro j
      exact sameMM_trans
        (sameMM_trans (updBody_sameMM (applyImpulse_sameMM _ _ _) j)
          (updBody_sameMM (applyImpulse_sameMM _ _ _) j))
        (ih _ j)

theorem solveVelocityNormalPass_sameMM (c : Collision) (cts : List Contact) :
    ∀ (st : Bodies × List Contact) j,
      sameMM (st.1 j) ((solveVelocityNormalPass c st cts).1 j) := by
  unfold solveVelocityNormalPass
  induction cts with
  | nil => exact fun st j => sameMM_rfl _
  | cons ct rest ih =>
      intro st j
      exact sameMM_trans
        (sameMM_trans (updBody_sameMM (applyImpulse_sameMM _ _ _) j)
          (updBody_sameMM (applyImpulse_sameMM _ _ _) j))
        (ih _ j)

theorem solveVelocityTangentPass_sameMM (c : Collision) (cts : List Contact) :
    ∀ (st : Bodies × List Contact) j,
      sameMM (st.1 j) ((solveVelocityTangentPass c st cts).1 j) := by
  unfold solveVelocityTangentPass
  induction cts with
  | nil => exact fun st j => sameMM_rfl _
  | cons ct rest ih =>
      intro st j
      exact sameMM_trans
        (sameMM_trans (updBody_sameMM (applyImpulse_sameMM _ _ _) j)
          (updBody_sameMM (applyImpulse_sameMM _ _ _) j))
        (ih _ j)

theorem solveVelocity_sameMM (c : Collision) (m : Bodies) :
    ∀ j, sameMM (m j) ((c.solveVelocity m).1 j) := by
  intro j
  unfold Collision.solveVelocity
  exact sameMM_trans (solveVelocityNormalPass_sameMM c _ (m, []) j)
    (solveVelocityTangentPass_sameMM c _ _ j)

theorem foldl_fst_sameMM {β γ : Type} (f : (Bodies × List γ) → β → (Bodies × List γ))
    (hf : ∀ st c j, sameMM (st.1 j) ((f st c).1 j)) :
    ∀ (cs : List β) (st : Bodies × List γ) j, sameMM (st.1 j) ((cs.foldl f st).1 j) := by
  intro cs
  induction cs with
  | nil => exact fun st j => sameMM_rfl _
  | cons c rest ih =>
      intro st j
      exact sameMM_trans (hf st c j) (ih _ j)

theorem velocityPass_sameMM (w : World) :
    ∀ j, sameMM (w.bodies j) ((velocityPass w).bodies j) := by
  intro j
  exact foldl_fst_sameMM
    (fun st c => ((c.solveVelocity st.1).1, st.2 ++ [(c.solveVelocity st.1).2]))
    (fun st c j => solveVelocity_sameMM c st.1 j) w.collisions (w.bodies, []) j

theorem resolvePrePass_sameMM (w : World) :
    ∀ j, sameMM (w.bodies j) ((resolvePrePass w).bodies j) := by
  intro j
  exact foldl_fst_sameMM _
    (fun st c j =>
      sameMM_trans (solvePositionLinearOnly_sameMM c st.1 j)
        (applyAccumulatedImpulses_sameMM c _ j))
    w.collisions (w.bodies, []) j

theorem iterVelocity_sameMM (n : ℕ) :
    ∀ (w : World) j, sameMM (w.bodies j) ((iterVelocity n w).bodies j) := by
  induction n with
  | zero => exact fun w j => sameMM_rfl _
  | succ n ih =>
      intro w j
      exact sameMM_trans (velocityPass_sameMM w j) (ih _ j)

theorem resolveCollisions_sameMM (n : ℕ) (w : World) :
    ∀ j, sameMM (w.bodies j) ((resolveCollisions n w).bodies j) := by
  intro j
  unfold resolveCollisions
  exact sameMM_trans (resolvePrePass_sameMM w j) (iterVelocity_sameMM n _ j)

/-- C5: for fixed bodies, `inverseMass = 0` and `inverseAngularMass = 0` hold
from construction on; no engine operation (translate, rotate, force/impulse
application, integration, the engine's per-body step phase, or any solver
pass) ever changes either inverse mass of any body; and neither
`RigidBody.integrate` nor the engine's per-step integration phase moves or
rotates a fixed body (both leave it entirely unchanged). -/
theorem fixedBody_invariant :
    (∀ id coll pos m am r f,
      (mkRigidBody id coll pos m am r f true).inverseMass = 0 ∧
      (mkRigidBody id coll pos m am r f true).inverseAngularMass = 0) ∧
    (∀ b δ, sameMM b (RigidBody.translate b δ)) ∧
    (∀ M b δ, sameMM b (RigidBody.rotate M b δ)) ∧
    (∀ b f r, sameMM b (RigidBody.applyForce b f r)) ∧
    (∀ b i r, sameMM b (RigidBody.applyImpulse b i r)) ∧
    (∀ M dt b, sameMM b (RigidBody.integrate M dt b)) ∧
    (∀ M g dt wm b, sameMM b (stepBody M g dt wm b)) ∧
    (∀ c m j, sameMM (m j) ((Collision.solvePositionLinearOnly c m) j)) ∧
    (∀ c m j, sameMM (m j) ((Collision.applyAccumulatedImpulses c m) j)) ∧
    (∀ c m j, sameMM (m j) ((Collision.solveVelocity c m).1 j)) ∧
    (∀ n w j, sameMM (w.bodies j) ((resolveCollisions n w).bodies j)) ∧
    (∀ M dt b, b.fixed = true → RigidBody.integrate M dt b = b) ∧
    (∀ M g dt wm b, b.fixed = true → stepBody M g dt wm b = b) := by
  refine ⟨?_, translate_sameMM, rotate_sameMM, applyForce_sameMM, applyImpulse_sameMM,
    integrate_sameMM, stepBody_sameMM, solvePositionLinearOnly_sameMM,
    applyAccumulatedImpulses_sameMM, solveVelocity_sameMM, resolveCollisions_sameMM,
    ?_, ?_⟩
  · intro id coll pos m am r f
    exact ⟨rfl, rfl⟩
  · intro M dt b hb
    unfold RigidBody.integrate
    simp [hb]
  · intro M g dt wm b hb
    unfold stepBody
    simp [hb]

/-- C5 witness: the invariant theorem applied to the concrete fixed fixture
body (which indeed has both inverse masses zero and is left unchanged by
integration and the step phase). -/
theorem fixedBody_invariant_witness :
    bodyFixedW.fixed = true ∧
    RigidBody.integrate mathFnsW 1 bodyFixedW = bodyFixedW ∧
    stepBody mathFnsW 981 (1 / 500) ⟨1280, 720⟩ bodyFixedW = bodyFixedW :=
  ⟨rfl, fixedBody_invariant.2.2.2.2.2.2.2.2.2.2.2.1 mathFnsW 1 bodyFixedW rfl,
    fixedBody_invariant.2.2.2.2.2.2.2.2.2.2.2.2 mathFnsW 981 (1 / 500) ⟨1280, 720⟩ bodyFixedW rfl⟩

/-! ## C2 — accumulated-impulse bounds after the velocity iterations -/

/-- The per-contact solver invariant: non-negative accumulated normal impulse
and friction-clamped accumulated tangent impulse. -/
def contactInv (μ : ℚ) (ct : Contact) : Prop :=
  0 ≤ ct.accumulatedNormalMagnitude ∧
  |ct.accumulatedTangentMagnitude| ≤ μ * ct.accumulatedNormalMagnitude

/-- The invariant for a whole collision, with its own friction coefficient. -/
def collisionInv (c : Collision) : Prop :=
  0 ≤ c.friction ∧ ∀ ct ∈ c.manifold.contacts, contactInv c.friction ct

theorem abs_clamp_le {x hi : ℚ} (h : 0 ≤ hi) : |clamp x (-hi) hi| ≤ hi := by
  unfold clamp
  rw [abs_le]
  exact ⟨le_min (le_max_left _ _) (by linarith), min_le_right _ _⟩

/-- A generic fold invariant for the solver passes: `P` holds of everything in
the output list provided the step establishes it. -/
theorem foldl_snd_all {β γ : Type} (f : (Bodies × List γ) → β → (Bodies × List γ))
    (P : γ → Prop) (R : β → Prop)
    (hf : ∀ st c, R c → (∀ y ∈ st.2, P y) → ∀ y ∈ (f st c).2, P y) :
    ∀ (cs : List β) (st : Bodies × List γ),
      (∀ c ∈ cs, R c) → (∀ y ∈ st.2, P y) → ∀ y ∈ (cs.foldl f st).2, P y := by
  intro cs
  induction cs with
  | nil => exact fun st _ h => h
  | cons c rest ih =>
      intro st hR h
      exact ih _ (fun x hx => hR x (List.mem_cons_of_mem _ hx))
        (hf st c (hR c (List.mem_cons_self _ _)) h)

/-- Every contact leaving the normal pass has a non-negative accumulated
normal magnitude (it was just clamped by `max (· + λ) 0`). -/
theorem normalPass_acc_nonneg (c : Collision) (cts : List Contact)
    (st : Bodies × List Contact)
    (h : ∀ ct ∈ st.2, 0 ≤ ct.accumulatedNormalMagnitude) :
    ∀ ct ∈ (solveVelocityNormalPass c st cts).2, 0 ≤ ct.accumulatedNormalMagnitude := by
  unfold solveVelocityNormalPass
  induction cts generalizing st with
  | nil => exact h
  | cons ct0 rest ih =>
      refine ih _ ?_
      intro ct hct
      dsimp only at hct
      rcases List.mem_append.1 hct with h1 | h2
      · exact h ct h1
      · rw [List.mem_singleton] at h2
        subst h2
        exact le_max_right _ 0

/-- Every contact leaving the tangent pass satisfies the full invariant,
provided its accumulated normal magnitude was non-negative going in and the
friction coefficient is non-negative. -/
theorem tangentPass_inv (c : Collision) (hμ : 0 ≤ c.friction) (cts : List Contact)
    (hcts : ∀ ct ∈ cts, 0 ≤ ct.accumulatedNormalMagnitude)
    (st : Bodies × List Contact) (h : ∀ ct ∈ st.2, contactInv c.friction ct) :
    ∀ ct ∈ (solveVelocityTangentPass c st cts).2, contactInv c.friction ct := by
  unfold solveVelocityTangentPass
  induction cts generalizing st with
  | nil => exact h
  | cons ct0 rest ih =>
      have hct0 : 0 ≤ ct0.accumulatedNormalMagnitude := hcts ct0 (List.mem_cons_self _ _)
      refine ih (fun ct hct => hcts ct (List.mem_cons_of_mem _ hct)) _ ?_
      intro ct hct
      dsimp only at hct
      rcases List.mem_append.1 hct with h1 | h2
      · exact h ct h1
      · rw [List.mem_singleton] at h2
        subst h2
        unfold contactInv
        refine ⟨hct0, ?_⟩
        show |clamp _ (-(ct0.accumulatedNormalMagnitude * c.friction))
            (ct0.accumulatedNormalMagnitude * c.friction)| ≤
          c.friction * ct0.accumulatedNormalMagnitude
        rw [mul_comm c.friction]
        exact abs_clamp_le (mul_nonneg hct0 hμ)

/-- After `Collision.solveVelocity`, every contact of the collision satisfies
the invariant (the tangent clamp always runs after the normal clamp). -/
theorem solveVelocity_inv (c : Collision) (bodies : Bodies) (hμ : 0 ≤ c.friction) :
    ∀ ct ∈ (c.solveVelocity bodies).2.manifold.contacts, contactInv c.friction ct := by
  intro ct hct
  have hn : ∀ x ∈ (solveVelocityNormalPass c (bodies, []) c.manifold.contacts).2,
      0 ≤ x.accumulatedNormalMagnitude :=
    normalPass_acc_nonneg c c.manifold.contacts (bodies, [])
      (fun x hx => absurd hx (List.not_mem_nil x))
  have ht := tangentPass_inv c hμ _ hn
    ((solveVelocityNormalPass c (bodies, []) c.manifold.contacts).1, [])
    (fun x hx => absurd hx (List.not_mem_nil x))
  exact ht ct hct

/-- One full velocity iteration establishes the invariant for every collision
in the list, given non-negative frictions. -/
theorem velocityPass_inv (w : World) (hf : ∀ c ∈ w.collisions, 0 ≤ c.friction) :
    ∀ c ∈ (velocityPass w).collisions, collisionInv c := by
  refine foldl_snd_all
    (fun st c => ((c.solveVelocity st.1).1, st.2 ++ [(c.solveVelocity st.1).2]))
    collisionInv (fun (c : Collision) => 0 ≤ c.friction) ?_ w.collisions (w.bodies, []) hf
    (fun x hx => absurd hx (List.not_mem_nil x))
  intro st c hc hall y hy
  rcases List.mem_append.1 hy with h1 | h2
  · exact hall y h1
  · rw [List.mem_singleton] at h2
    subst h2
    exact ⟨hc, solveVelocity_inv c st.1 hc⟩

/-- `resolvePrePass` does not change any collision's friction coefficient. -/
theorem resolvePrePass_friction (w : World) (hf : ∀ c ∈ w.collisions, 0 ≤ c.friction) :
    ∀ c ∈ (resolvePrePass w).collisions, 0 ≤ c.friction := by
  refine foldl_snd_all
    (fun st c =>
      (c.applyAccumulatedImpulses (c.solvePositionLinearOnly st.1),
        st.2 ++
          [{ c with
              manifold :=
                { c.manifold with
                    contacts := c.manifold.contacts.map (fun ct =>
                      ct.updateRestitutionBias
                        (c.applyAccumulatedImpulses (c.solvePositionLinearOnly st.1) c.idA)
                        (c.applyAccumulatedImpulses (c.solvePositionLinearOnly st.1) c.idB)
                        c.manifold.normal) } }]))
    (fun (c : Collision) => 0 ≤ c.friction) (fun (c : Collision) => 0 ≤ c.friction) ?_
    w.collisions (w.bodies, []) hf (fun x hx => absurd hx (List.not_mem_nil x))
  intro st c hc hall y hy
  rcases List.mem_append.1 hy with h1 | h2
  · exact hall y h1
  · rw [List.mem_singleton] at h2
    subst h2
    exact hc

/-- At least one velocity iteration establishes the invariant everywhere. -/
theorem iterVelocity_inv :
    ∀ (n : ℕ) (w : World), 1 ≤ n → (∀ c ∈ w.collisions, 0 ≤ c.friction) →
      ∀ c ∈ (iterVelocity n w).collisions, collisionInv c := by
  intro n
  induction n with
  | zero => intro w h; omega
  | succ n ih =>
      intro w _ hf
      show ∀ c ∈ (iterVelocity n (velocityPass w)).collisions, collisionInv c
      cases n with
      | zero => exact velocityPass_inv w hf
      | succ m =>
          exact ih (velocityPass w) (Nat.succ_le_succ (Nat.zero_le m))
            (fun c hc => (velocityPass_inv w hf c hc).1)

/-- C2: after the velocity-solver iterations of a step (`resolveCollisions`
with at least one iteration, non-negative per-collision frictions — these are
averages of body frictions in `[0,1]`), every contact of every collision has
`accumulatedNormalMagnitude ≥ 0` and
`|accumulatedTangentMagnitude| ≤ friction · accumulatedNormalMagnitude`. -/
theorem solver_contact_invariant (w : World) (iters : ℕ) (h1 : 1 ≤ iters)
    (hf : ∀ c ∈ w.collisions, 0 ≤ c.friction) :
    ∀ c ∈ (resolveCollisions iters w).collisions, ∀ ct ∈ c.manifold.contacts,
      0 ≤ ct.accumulatedNormalMagnitude ∧
      |ct.accumulatedTangentMagnitude| ≤ c.friction * ct.accumulatedNormalMagnitude := by
  intro c hc ct hct
  have h := iterVelocity_inv iters (resolvePrePass w) h1 (resolvePrePass_friction w hf) c hc
  exact h.2 ct hct

def worldW : World := ⟨bodiesW, [collisionW]⟩

theorem worldW_friction_nonneg : ∀ c ∈ worldW.collisions, 0 ≤ c.friction := by
  intro c hc
  simp only [worldW, List.mem_singleton] at hc
  subst hc
  norm_num [collisionW]

/-- C2 witness: the invariant theorem applied to a concrete one-collision
world running one velocity iteration. -/
theorem solver_contact_invariant_witness :
    (1 : ℕ) ≤ 1 ∧ (∀ c ∈ worldW.collisions, 0 ≤ c.friction) ∧
    (∀ c ∈ (resolveCollisions 1 worldW).collisions, ∀ ct ∈ c.manifold.contacts,
      0 ≤ ct.accumulatedNormalMagnitude ∧
      |ct.accumulatedTangentMagnitude| ≤ c.friction * ct.accumulatedNormalMagnitude) :=
  ⟨le_refl 1, worldW_friction_nonneg,
    solver_contact_invariant worldW 1 (le_refl 1) worldW_friction_nonneg⟩

/-! ## C6 — island transitivity -/

/-- Two bodies point at one common island. -/
def sameIsland (st : IslandSt) (x y : ℕ) : Prop :=
  ∃ i, st.islandOf x = some i ∧ st.islandOf y = some i

/-- Consistency of the island state: the back-pointers and the island body
sets agree, and only created islands are inhabited. -/
def IslandInv (st : IslandSt) : Prop :=
  (∀ x i, st.islandOf x = some i ↔ x ∈ st.islandBodies i) ∧
  (∀ i, (st.islandBodies i).Nonempty → i < st.numIslands)

theorem islandInv_clear : IslandInv IslandSt.clear := by
  constructor
  · intro x i
    simp [IslandSt.clear]
  · intro i h
    simp [IslandSt.clear] at h

theorem islandBodies_disjoint {st : IslandSt}
    (h1 : ∀ x i, st.islandOf x = some i ↔ x ∈ st.islandBodies i) {x : ℕ} {i j : ℕ}
    (hi : x ∈ st.islandBodies i) (hj : x ∈ st.islandBodies j) : i = j := by
  have := ((h1 x i).2 hi).symm.trans ((h1 x j).2 hj)
  exact Option.some_injective _ this

theorem addToIsland_islandOf_ne (fixed : ℕ → Bool) (st : IslandSt) (b i : ℕ) {x : ℕ}
    (hx : x ≠ b) : (st.addToIsland fixed b i).islandOf x = st.islandOf x := by
  unfold IslandSt.addToIsland
  split
  · rfl
  · dsimp only
    rw [if_neg hx]

theorem addToIsland_islandOf_self (fixed : ℕ → Bool) (st : IslandSt) (b i : ℕ)
    (hb : fixed b = false) : (st.addToIsland fixed b i).islandOf b = some i := by
  unfold IslandSt.addToIsland
  rw [if_neg (by simp [hb])]
  dsimp only
  rw [if_pos rfl]

theorem addToIsland_inv1 (fixed : ℕ → Bool) (st : IslandSt) (b i : ℕ)
    (h1 : ∀ x j, st.islandOf x = some j ↔ x ∈ st.islandBodies j)
    (hb : st.islandOf b = none ∨ st.islandOf b = some i) :
    ∀ x j, (st.addToIsland fixed b i).islandOf x = some j ↔
      x ∈ (st.addToIsland fixed b i).islandBodies j := by
  unfold IslandSt.addToIsland
  split
  · exact h1
  · intro x j
    dsimp only
    by_cases hx : x = b
    · subst hx
      by_cases hj : j = i
      · simp [hj]
      · simp only [if_pos rfl, if_neg hj]
        constructor
        · intro hc
          exact absurd (Option.some_injective _ hc).symm hj
        · intro hc
          have hxj := (h1 x j).2 hc
          rcases hb with hb | hb <;> rw [hxj] at hb
          · exact absurd hb (by simp)
          · exact absurd (Option.some_injective _ hb) hj
    · by_cases hj : j = i
      · simp only [if_neg hx, hj, if_pos rfl, Finset.mem_insert]
        rw [h1 x i]
        simp [hx]
      · simp only [if_neg hx, if_neg hj]
        exact h1 x j

theorem addToIsland_numIslands (fixed : ℕ → Bool) (st : IslandSt) (b i : ℕ) :
    (st.addToIsland fixed b i).numIslands = st.numIslands := by
  unfold IslandSt.addToIsland
  split <;> rfl

theorem addToIsland_bodies_ne (fixed : ℕ → Bool) (st : IslandSt) (b i : ℕ) {j : ℕ}
    (hj : j ≠ i) : (st.addToIsland fixed b i).islandBodies j = st.islandBodies j := by
  unfold IslandSt.addToIsland
  split
  · rfl
  · exact if_neg hj

theorem addToIsland_inv (fixed : ℕ → Bool) (st : IslandSt) (b i : ℕ) (h : IslandInv st)
    (hb : st.islandOf b = none ∨ st.islandOf b = some i) (hi : i < st.numIslands) :
    IslandInv (st.addToIsland fixed b i) := by
  refine ⟨addToIsland_inv1 fixed st b i h.1 hb, ?_⟩
  intro j hj
  rw [addToIsland_numIslands]
  by_cases hji : j = i
  · exact hji ▸ hi
  · rw [addToIsland_bodies_ne fixed st b i hji] at hj
    exact h.2 j hj

theorem merge_islandOf (st : IslandSt) (ia ib x : ℕ) :
    (st.merge ia ib).islandOf x =
      if x ∈ st.islandBodies ib then some ia else st.islandOf x := rfl

theorem merge_inv (st : IslandSt) (ia ib : ℕ) (h : IslandInv st) (hne : ia ≠ ib)
    (hia : (st.islandBodies ia).Nonempty) : IslandInv (st.merge ia ib) := by
  obtain ⟨h1, h2⟩ := h
  constructor
  · intro x j
    unfold IslandSt.merge
    dsimp only
    by_cases hx : x ∈ st.islandBodies ib
    · rw [if_pos hx]
      by_cases hj : j = ia
      · simp [hj, hx]
      · simp only [if_neg hj]
        constructor
        · intro hc
          exact absurd (Option.some_injective _ hc).symm hj
        · intro hc
          by_cases hjb : j = ib
          · rw [if_pos hjb] at hc
            simp at hc
          · rw [if_neg hjb] at hc
            exact absurd (islandBodies_disjoint h1 hc hx) hjb
    · rw [if_neg hx]
      by_cases hj : j = ia
      · simp only [hj, if_pos rfl, Finset.mem_union]
        rw [h1 x ia]
        simp [hx]
      · by_cases hjb : j = ib
        · rw [hjb] at hj ⊢
          simp only [if_neg hj, if_pos rfl]
          rw [h1 x ib]
          simp [hx]
        · simp only [if_neg hj, if_neg hjb]
          exact h1 x j
  · intro j hj
    unfold IslandSt.merge at hj ⊢
    dsimp only at hj ⊢
    by_cases hja : j = ia
    · rw [hja]
      exact h2 ia hia
    · rw [if_neg hja] at hj
      by_cases hjb : j = ib
      · rw [if_pos hjb] at hj
        simp at hj
      · rw [if_neg hjb] at hj
        exact h2 j hj

theorem processPair_inv (fixed : ℕ → Bool) (st : IslandSt) (p : ℕ × ℕ)
    (h : IslandInv st) : IslandInv (processPair fixed st p) := by
  obtain ⟨h1, h2⟩ := h
  unfold processPair
  rcases hA : st.islandOf p.1 with _ | ia <;> rcases hB : st.islandOf p.2 with _ | ib
  · -- none / none: a fresh island is created and both bodies added
    dsimp only
    have hniA : st.islandOf p.1 = none ∨ st.islandOf p.1 = some st.numIslands := Or.inl hA
    have hbodiesNi : st.islandBodies st.numIslands = ∅ := by
      by_contra hne
      have := h2 st.numIslands (Finset.nonempty_iff_ne_empty.2 hne)
      omega
    have st1inv1 := addToIsland_inv1 fixed st p.1 st.numIslands h1 hniA
    have st1numIslands := addToIsland_numIslands fixed st p.1 st.numIslands
    have hB1 : (st.addToIsland fixed p.1 st.numIslands).islandOf p.2 = none ∨
        (st.addToIsland fixed p.1 st.numIslands).islandOf p.2 = some st.numIslands := by
      unfold IslandSt.addToIsland
      split
      · exact Or.inl hB
      · dsimp only
        by_cases hab : p.2 = p.1
        · rw [if_pos hab]
          exact Or.inr rfl
        · rw [if_neg hab]
          exact Or.inl hB
    have st2inv1 := addToIsland_inv1 fixed _ p.2 st.numIslands st1inv1 hB1
    constructor
    · exact st2inv1
    · intro j hj
      dsimp only at hj ⊢
      rw [addToIsland_numIslands, st1numIslands]
      by_cases hji : j = st.numIslands
      · omega
      · rw [addToIsland_bodies_ne _ _ _ _ hji, addToIsland_bodies_ne _ _ _ _ hji] at hj
        have := h2 j hj
        omega
  · -- none / some: add a to b's island
    dsimp only
    have hmem : p.2 ∈ st.islandBodies ib := (h1 p.2 ib).1 hB
    exact addToIsland_inv fixed st p.1 ib ⟨h1, h2⟩ (Or.inl hA)
      (h2 ib ⟨p.2, hmem⟩)
  · -- some / none: add b to a's island
    dsimp only
    have hmem : p.1 ∈ st.islandBodies ia := (h1 p.1 ia).1 hA
    exact addToIsland_inv fixed st p.2 ia ⟨h1, h2⟩ (Or.inl hB)
      (h2 ia ⟨p.1, hmem⟩)
  · -- some / some: merge (or nothing)
    dsimp only
    split
    · exact ⟨h1, h2⟩
    · have hmem : p.1 ∈ st.islandBodies ia := (h1 p.1 ia).1 hA
      exact merge_inv st ia ib ⟨h1, h2⟩ (by assumption) ⟨p.1, hmem⟩

/-- Once two bodies share an island, any later confirmed pair keeps them in a
common island (merges move whole islands; additions touch island-less
bodies). -/
theorem sameIsland_mono (fixed : ℕ → Bool) (st : IslandSt) (p : ℕ × ℕ)
    (h : IslandInv st) {x y : ℕ} (hxy : sameIsland st x y) :
    sameIsland (processPair fixed st p) x y := by
  obtain ⟨h1, h2⟩ := h
  obtain ⟨i, hx, hy⟩ := hxy
  unfold processPair
  have hne1 : ∀ z : ℕ, st.islandOf z = some i → st.islandOf p.1 = none → z ≠ p.1 := by
    intro z hz hn hzz
    rw [hzz, hn] at hz
    cases hz
  have hne2 : ∀ z : ℕ, st.islandOf z = some i → st.islandOf p.2 = none → z ≠ p.2 := by
    intro z hz hn hzz
    rw [hzz, hn] at hz
    cases hz
  rcases hA : st.islandOf p.1 with _ | ia <;> rcases hB : st.islandOf p.2 with _ | ib
  · -- none / none
    dsimp only
    refine ⟨i, ?_, ?_⟩
    · rw [addToIsland_islandOf_ne _ _ _ _ (hne2 x hx hB),
        addToIsland_islandOf_ne _ _ _ _ (hne1 x hx hA)]
      exact hx
    · rw [addToIsland_islandOf_ne _ _ _ _ (hne2 y hy hB),
        addToIsland_islandOf_ne _ _ _ _ (hne1 y hy hA)]
      exact hy
  · -- none / some
    dsimp only
    refine ⟨i, ?_, ?_⟩
    · rw [addToIsland_islandOf_ne _ _ _ _ (hne1 x hx hA)]
      exact hx
    · rw [addToIsland_islandOf_ne _ _ _ _ (hne1 y hy hA)]
      exact hy
  · -- some / none
    dsimp only
    refine ⟨i, ?_, ?_⟩
    · rw [addToIsland_islandOf_ne _ _ _ _ (hne2 x hx hB)]
      exact hx
    · rw [addToIsland_islandOf_ne _ _ _ _ (hne2 y hy hB)]
      exact hy
  · -- some / some
    dsimp only
    split
    · exact ⟨i, hx, hy⟩
    · by_cases hib : i = ib
      · subst hib
        exact ⟨ia, by rw [merge_islandOf, if_pos ((h1 x i).1 hx)],
          by rw [merge_islandOf, if_pos ((h1 y i).1 hy)]⟩
      · have hxn : x ∉ st.islandBodies ib := fun hc =>
          hib (islandBodies_disjoint h1 ((h1 x i).1 hx) hc)
        have hyn : y ∉ st.islandBodies ib := fun hc =>
          hib (islandBodies_disjoint h1 ((h1 y i).1 hy) hc)
        exact ⟨i, by rw [merge_islandOf, if_neg hxn]; exact hx,
          by rw [merge_islandOf, if_neg hyn]; exact hy⟩

/-- Processing a confirmed pair of two non-fixed bodies leaves them in a
common island. -/
theorem processPair_connects (fixed : ℕ → Bool) (st : IslandSt) (a b : ℕ)
    (h : IslandInv st) (hfa : fixed a = false) (hfb : fixed b = false) :
    sameIsland (processPair fixed st (a, b)) a b := by
  obtain ⟨h1, h2⟩ := h
  unfold processPair
  rcases hA : st.islandOf a with _ | ia <;> rcases hB : st.islandOf b with _ | ib
  · -- none / none
    dsimp only
    refine ⟨st.numIslands, ?_, addToIsland_islandOf_self fixed _ b _ hfb⟩
    by_cases hab : a = b
    · rw [hab]
      exact addToIsland_islandOf_self fixed _ b _ hfb
    · rw [addToIsland_islandOf_ne _ _ _ _ hab]
      exact addToIsland_islandOf_self fixed _ a _ hfa
  · -- none / some ib: a is added to ib
    dsimp only
    refine ⟨ib, addToIsland_islandOf_self fixed _ a _ hfa, ?_⟩
    rw [addToIsland_islandOf_ne _ _ _ _ (by rintro rfl; rw [hA] at hB; cases hB)]
    exact hB
  · -- some ia / none: b is added to ia
    dsimp only
    refine ⟨ia, ?_, addToIsland_islandOf_self fixed _ b _ hfb⟩
    rw [addToIsland_islandOf_ne _ _ _ _ (by rintro rfl; rw [hB] at hA; cases hA)]
    exact hA
  · -- some / some
    dsimp only
    split
    · rename_i heq
      exact ⟨ia, hA, heq ▸ hB⟩
    · refine ⟨ia, ?_, by rw [merge_islandOf, if_pos ((h1 b ib).1 hB)]⟩
      rw [merge_islandOf, if_neg]
      · exact hA
      · intro hc
        rename_i hne
        exact hne (islandBodies_disjoint h1 ((h1 a ia).1 hA) hc)

theorem islandInv_fold (fixed : ℕ → Bool) (ps : List (ℕ × ℕ)) :
    ∀ st, IslandInv st → IslandInv (ps.foldl (processPair fixed) st) := by
  induction ps with
  | nil => exact fun st h => h
  | cons p rest ih => exact fun st h => ih _ (processPair_inv fixed st p h)

theorem sameIsland_fold (fixed : ℕ → Bool) (ps : List (ℕ × ℕ)) :
    ∀ st, IslandInv st → ∀ x y, sameIsland st x y →
      sameIsland (ps.foldl (processPair fixed) st) x y := by
  induction ps with
  | nil => exact fun st _ x y h => h
  | cons p rest ih =>
      intro st hinv x y hxy
      exact ih _ (processPair_inv fixed st p hinv) x y (sameIsland_mono fixed st p hinv hxy)

theorem pair_connected_in_fold (fixed : ℕ → Bool) (ps : List (ℕ × ℕ)) :
    ∀ st, IslandInv st → ∀ a b, (a, b) ∈ ps → fixed a = false → fixed b = false →
      sameIsland (ps.foldl (processPair fixed) st) a b := by
  induction ps with
  | nil =>
      intro st _ a b hm
      cases hm
  | cons p rest ih =>
      intro st hinv a b hm hfa hfb
      rcases List.mem_cons.1 hm with hm | hm
      · subst hm
        exact sameIsland_fold fixed rest _ (processPair_inv fixed st (a, b) hinv) a b
          (processPair_connects fixed st a b hinv hfa hfb)
      · exact ih _ (processPair_inv fixed st p hinv) a b hm hfa hfb

/-- C6: if a single collision pass confirms pairs (A,B) and (B,C) and none of
A, B, C is fixed, then at the end of the pass all three reference one common
surviving island that contains all three. -/
theorem island_transitivity (fixed : ℕ → Bool) (pairs : List (ℕ × ℕ)) (A B C : ℕ)
    (hfa : fixed A = false) (hfb : fixed B = false) (hfc : fixed C = false)
    (hab : (A, B) ∈ pairs) (hbc : (B, C) ∈ pairs) :
    ∃ k, (runIslandPass fixed pairs).islandOf A = some k ∧
      (runIslandPass fixed pairs).islandOf B = some k ∧
      (runIslandPass fixed pairs).islandOf C = some k ∧
      A ∈ (runIslandPass fixed pairs).islandBodies k ∧
      B ∈ (runIslandPass fixed pairs).islandBodies k ∧
      C ∈ (runIslandPass fixed pairs).islandBodies k := by
  have hinv : IslandInv (runIslandPass fixed pairs) :=
    islandInv_fold fixed pairs IslandSt.clear islandInv_clear
  have hAB : sameIsland (runIslandPass fixed pairs) A B :=
    pair_connected_in_fold fixed pairs IslandSt.clear islandInv_clear A B hab hfa hfb
  have hBC : sameIsland (runIslandPass fixed pairs) B C :=
    pair_connected_in_fold fixed pairs IslandSt.clear islandInv_clear B C hbc hfb hfc
  obtain ⟨i, hA, hB⟩ := hAB
  obtain ⟨j, hB', hC⟩ := hBC
  have hij : i = j := Option.some_injective _ (hB.symm.trans hB')
  subst hij
  exact ⟨i, hA, hB, hC, (hinv.1 A i).1 hA, (hinv.1 B i).1 hB, (hinv.1 C i).1 hC⟩

def fixedW : ℕ → Bool := fun _ => false

def pairsW : List (ℕ × ℕ) := [(0, 1), (1, 2)]

/-- C6 witness: the transitivity theorem applied to the concrete confirmed
pairs (0,1) and (1,2) with no fixed bodies. -/
theorem island_transitivity_witness :
    (0, 1) ∈ pairsW ∧ (1, 2) ∈ pairsW ∧
    (∃ k, (runIslandPass fixedW pairsW).islandOf 0 = some k ∧
      (runIslandPass fixedW pairsW).islandOf 1 = some k ∧
      (runIslandPass fixedW pairsW).islandOf 2 = some k ∧
      0 ∈ (runIslandPass fixedW pairsW).islandBodies k ∧
      1 ∈ (runIslandPass fixedW pairsW).islandBodies k ∧
      2 ∈ (runIslandPass fixedW pairsW).islandBodies k) :=
  ⟨by decide, by decide,
    island_transitivity fixedW pairsW 0 1 2 rfl rfl rfl (by decide) (by decide)⟩

/-! ## C7 — EPA termination behaviour -/

theorem epaLoop_spec (sA sB : Vec2 → Vec2) (sq : ℚ → ℚ) :
    ∀ (fuel : ℕ) (simplex : List MinkowskiDiff),
      epaLoop sA sB sq fuel simplex = .error "EPA failed to converge" ∨
      ∃ r s, epaLoop sA sB sq fuel simplex = .ok r ∧
        r.normal = (epaScan sq s).2.2.1 ∧
        r.depth = Vec2.dot (epaScan sq s).2.2.1 (mkMinkowskiDiff sA sB (epaScan sq s).2.2.1).result ∧
        |r.depth - (epaScan sq s).2.2.2| < 1 / 1000 ∧
        r.mtv = Vec2.mulScalar (epaScan sq s).2.2.1 r.depth ∧
        r.tangent = Vec2.perpendicular r.normal ∧
        r.worldContactA = epaContactA s (epaScan sq s).1 (epaScan sq s).2.1 ∧
        r.worldContactB = Vec2.sub r.worldContactA r.mtv := by
  intro fuel
  induction fuel with
  | zero => exact fun simplex => Or.inl rfl
  | succ n ih =>
      intro simplex
      rw [epaLoop]
      dsimp only
      split_ifs with htol
      · right
        exact ⟨_, simplex, rfl, rfl, rfl, htol, rfl, rfl, rfl, rfl⟩
      · exact ih _

/-- C7: `EPA` either returns, within its 100-iteration budget, a result whose
depth `d` is the probe distance along the minimum-distance polytope edge's
outward normal with `|d − minDistance| < 1e-3` for that edge's scan (the
penetration normal is that edge's normal and `mtv = normal · d`), or it
raises the `"EPA failed to converge"` error instead of returning a result. -/
theorem EPA_spec (sA sB : Vec2 → Vec2) (sq : ℚ → ℚ) (simplex : List MinkowskiDiff) :
    EPA sA sB sq simplex = .error "EPA failed to converge" ∨
    ∃ r s, EPA sA sB sq simplex = .ok r ∧
      r.normal = (epaScan sq s).2.2.1 ∧
      r.depth = Vec2.dot (epaScan sq s).2.2.1 (mkMinkowskiDiff sA sB (epaScan sq s).2.2.1).result ∧
      |r.depth - (epaScan sq s).2.2.2| < 1 / 1000 ∧
      r.mtv = Vec2.mulScalar (epaScan sq s).2.2.1 r.depth ∧
      r.tangent = Vec2.perpendicular r.normal ∧
      r.worldContactA = epaContactA s (epaScan sq s).1 (epaScan sq s).2.1 ∧
      r.worldContactB = Vec2.sub r.worldContactA r.mtv :=
  epaLoop_spec sA sB sq 100 simplex

/-! ## C8 — quadtree removal: path and prune lemmas -/

namespace QTree

variable {α : Type}

theorem at_nil : ∀ p : List (Fin 4), (nil : QTree α).at p = nil
  | [] => rfl
  | _ :: p => at_nil p

theorem at_append (t : QTree α) : ∀ (p q : List (Fin 4)), t.at (p ++ q) = (t.at p).at q := by
  intro p
  induction p generalizing t with
  | nil => exact fun q => rfl
  | cons i p ih => exact fun q => ih (t.child i) q

theorem setChild_child_same (t : QTree α) (i : Fin 4) (c : QTree α) (ht : t ≠ nil) :
    (t.setChild i c).child i = c := by
  cases t with
  | nil => exact absurd rfl ht
  | node its c0 c1 c2 c3 => fin_cases i <;> rfl

theorem setChild_child_ne (t : QTree α) (i : Fin 4) (c : QTree α) {j : Fin 4} (hj : j ≠ i) :
    (t.setChild i c).child j = t.child j := by
  cases t with
  | nil => rfl
  | node its c0 c1 c2 c3 =>
      fin_cases i <;> fin_cases j <;> first | rfl | exact absurd rfl hj

theorem items_setChild (t : QTree α) (i : Fin 4) (c : QTree α) :
    (t.setChild i c).items = t.items := by
  cases t with
  | nil => rfl
  | node its c0 c1 c2 c3 => fin_cases i <;> rfl

theorem setChild_setChild (t : QTree α) (i : Fin 4) (c d : QTree α) :
    (t.setChild i c).setChild i d = t.setChild i d := by
  cases t with
  | nil => rfl
  | node its c0 c1 c2 c3 => fin_cases i <;> rfl

theorem child_setItems (t : QTree α) (l : List α) (i : Fin 4) :
    (t.setItems l).child i = t.child i := by
  cases t with
  | nil => rfl
  | node its c0 c1 c2 c3 => fin_cases i <;> rfl

theorem items_setItems (t : QTree α) (l : List α) (ht : t ≠ nil) :
    (t.setItems l).items = l := by
  cases t with
  | nil => exact absurd rfl ht
  | node its c0 c1 c2 c3 => rfl

theorem setItems_ne_nil (t : QTree α) (l : List α) (ht : t ≠ nil) : t.setItems l ≠ nil := by
  cases t with
  | nil => exact absurd rfl ht
  | node its c0 c1 c2 c3 => exact fun h => QTree.noConfusion h

theorem setChild_ne_nil (t : QTree α) (i : Fin 4) (c : QTree α) (ht : t ≠ nil) :
    t.setChild i c ≠ nil := by
  cases t with
  | nil => exact absurd rfl ht
  | node its c0 c1 c2 c3 => fin_cases i <;> exact fun h => QTree.noConfusion h

/-- The path traverses actual nodes. -/
def validPath : QTree α → List (Fin 4) → Prop
  | _, [] => True
  | t, i :: p => t ≠ nil ∧ validPath (t.child i) p

theorem validPath_of_at_ne_nil (t : QTree α) :
    ∀ p : List (Fin 4), t.at p ≠ nil → validPath t p := by
  intro p
  induction p generalizing t with
  | nil => exact fun _ => trivial
  | cons i p ih =>
      intro h
      refine ⟨?_, ih (t.child i) h⟩
      rintro rfl
      exact h (at_nil p)

theorem setAt_at_split (t : QTree α) :
    ∀ (q u : List (Fin 4)) (s : QTree α), validPath t q →
      (t.setAt (q ++ u) s).at q = (t.at q).setAt u s := by
  intro q
  induction q generalizing t with
  | nil => exact fun u s _ => rfl
  | cons i q ih =>
      intro u s hv
      show ((t.setChild i ((t.child i).setAt (q ++ u) s)).child i).at q = _
      rw [setChild_child_same _ _ _ hv.1]
      exact ih (t.child i) u s hv.2

theorem setAt_at_self (t : QTree α) (p : List (Fin 4)) (s : QTree α) (hv : validPath t p) :
    (t.setAt p s).at p = s := by
  have h := setAt_at_split t p [] s hv
  rw [List.append_nil] at h
  rw [h]
  rfl

theorem items_at_setAt_of_ne (t : QTree α) :
    ∀ (p q : List (Fin 4)) (s : QTree α), validPath t p → (∀ r, q ≠ p ++ r) →
      ((t.setAt p s).at q).items = (t.at q).items := by
  intro p
  induction p generalizing t with
  | nil => exact fun q s _ hq => absurd rfl (hq q)
  | cons i p ih =>
      intro q s hv hq
      cases q with
      | nil =>
          show (t.setChild i ((t.child i).setAt p s)).items = t.items
          exact items_setChild _ _ _
      | cons j q' =>
          show (((t.setChild i ((t.child i).setAt p s)).child j).at q').items = _
          by_cases hij : j = i
          · subst hij
            rw [setChild_child_same _ _ _ hv.1]
            exact ih (t.child j) q' s hv.2 (fun r hr => hq r (by rw [hr]; rfl))
          · rw [setChild_child_ne _ _ _ hij]
            rfl

theorem setAt_setAt (t : QTree α) :
    ∀ (p : List (Fin 4)) (s1 s2 : QTree α), validPath t p →
      (t.setAt p s1).setAt p s2 = t.setAt p s2 := by
  intro p
  induction p generalizing t with
  | nil => exact fun s1 s2 _ => rfl
  | cons i p ih =>
      intro s1 s2 hv
      show (t.setChild i ((t.child i).setAt p s1)).setChild i
          (((t.setChild i ((t.child i).setAt p s1)).child i).setAt p s2) = _
      rw [setChild_child_same _ _ _ hv.1, ih (t.child i) s1 s2 hv.2, setChild_setChild]
      rfl

theorem allItems_eq_nil_at (t : QTree α) (h : t.allItems = []) :
    ∀ q : List (Fin 4), (t.at q).allItems = [] := by
  intro q
  induction q generalizing t with
  | nil => exact h
  | cons i q ih =>
      cases t with
      | nil => rw [show (nil : QTree α).at (i :: q) = nil from at_nil _]; rfl
      | node its c0 c1 c2 c3 =>
          simp only [allItems, List.append_eq_nil] at h
          show ((((QTree.node its c0 c1 c2 c3).child i).at q)).allItems = []
          fin_cases i
          · exact ih c0 h.2.1
          · exact ih c1 h.2.2.1
          · exact ih c2 h.2.2.2.1
          · exact ih c3 h.2.2.2.2

theorem items_ne_nil_allItems (t : QTree α) (h : t.items ≠ []) : t.allItems ≠ [] := by
  cases t with
  | nil => exact absurd rfl h
  | node its c0 c1 c2 c3 =>
      simp only [allItems, ne_eq, List.append_eq_nil]
      intro hc
      exact h hc.1

theorem prune_snd_iff (t : QTree α) : (t.prune).2 = true ↔ t.allItems = [] := by
  induction t with
  | nil => simp [prune, allItems]
  | node its c0 c1 c2 c3 ih0 ih1 ih2 ih3 =>
      show (its.isEmpty && !(!c0.prune.2 || !c1.prune.2 || !c2.prune.2 || !c3.prune.2)) = true ↔ _
      simp only [allItems, List.append_eq_nil, Bool.and_eq_true, Bool.not_eq_true',
        Bool.or_eq_false_iff, Bool.not_eq_false, Bool.not_eq_false', List.isEmpty_iff]
      rw [ih0, ih1, ih2, ih3]
      tauto

theorem items_prune (t : QTree α) : (t.prune).1.items = t.items := by
  cases t with
  | nil => rfl
  | node its c0 c1 c2 c3 => rfl

theorem prune_allItems (t : QTree α) : (t.prune).1.allItems = t.allItems := by
  induction t with
  | nil => rfl
  | node its c0 c1 c2 c3 ih0 ih1 ih2 ih3 =>
      show its ++ (_ ++ (_ ++ (_ ++ _))) = its ++ (_ ++ (_ ++ (_ ++ _)))
      have hk : ∀ c : QTree α, (c.prune).1.allItems = c.allItems →
          (if (c.prune).2 then nil else (c.prune).1).allItems = c.allItems := by
        intro c ihc
        split
        · rename_i hp
          rw [show (nil : QTree α).allItems = [] from rfl,
            ((prune_snd_iff c).1 hp).symm]
        · exact ihc
      rw [hk c0 ih0, hk c1 ih1, hk c2 ih2, hk c3 ih3]

theorem prune_at_cons [DecidableEq α] (t : QTree α) :
    ∀ (i : Fin 4) (r : List (Fin 4)),
      ((t.prune).1).at (i :: r) =
        if (t.at (i :: r)).allItems = [] then nil else ((t.at (i :: r)).prune).1 := by
  induction t with
  | nil =>
      intro i r
      rw [show ((nil : QTree α).prune).1 = nil from rfl, at_nil]
      simp [allItems]
  | node its c0 c1 c2 c3 ih0 ih1 ih2 ih3 =>
      intro i r
      have key : ∀ (c : QTree α),
          (∀ (j : Fin 4) (r' : List (Fin 4)),
            ((c.prune).1).at (j :: r') =
              if (c.at (j :: r')).allItems = [] then nil else ((c.at (j :: r')).prune).1) →
          ((if (c.prune).2 then nil else (c.prune).1).at r) =
            if (c.at r).allItems = [] then nil else ((c.at r).prune).1 := by
        intro c ihc
        by_cases hp : (c.prune).2 = true
        · have hall : c.allItems = [] := (prune_snd_iff c).1 hp
          rw [if_pos hp, at_nil, if_pos (allItems_eq_nil_at c hall r)]
        · rw [if_neg hp]
          cases r with
          | nil =>
              show (c.prune).1 = if c.allItems = [] then nil else (c.prune).1
              rw [if_neg (fun h => hp ((prune_snd_iff c).2 h))]
          | cons j r' => exact ihc j r'
      show (((QTree.node its c0 c1 c2 c3).prune).1.child i).at r =
        if (((QTree.node its c0 c1 c2 c3).child i).at r).allItems = [] then nil
        else ((((QTree.node its c0 c1 c2 c3).child i).at r).prune).1
      fin_cases i
      · exact key c0 ih0
      · exact key c1 ih1
      · exact key c2 ih2
      · exact key c3 ih3

theorem at_setItems_cons (t : QTree α) (l : List α) (j : Fin 4) (r : List (Fin 4)) :
    (t.setItems l).at (j :: r) = t.at (j :: r) := by
  show ((t.setItems l).child j).at r = (t.child j).at r
  rw [child_setItems]

end QTree

/-! ### `swapRemove` access lemmas -/

theorem swapRemove_eq {α : Type} (l : List α) (i : ℕ) (hl : l ≠ []) :
    swapRemove l i = (l.set i (l.getLast hl)).dropLast := by
  unfold swapRemove
  rw [List.getLast?_eq_getLast l hl]

theorem swapRemove_length {α : Type} (l : List α) (i : ℕ) :
    (swapRemove l i).length = l.length - 1 := by
  unfold swapRemove
  cases hl : l.getLast? with
  | none =>
      rw [List.getLast?_eq_none_iff.mp hl]
      rfl
  | some a => simp

theorem swapRemove_get_of_ne {α : Type} (l : List α) (i k : ℕ) (hki : k ≠ i)
    (hk : k < (swapRemove l i).length) :
    ∃ h2 : k < l.length, (swapRemove l i).get ⟨k, hk⟩ = l.get ⟨k, h2⟩ := by
  have hlen := swapRemove_length l i
  have hl : l ≠ [] := by
    rintro rfl
    rw [show swapRemove ([] : List α) i = [] from rfl] at hk
    simp at hk
  have h2 : k < l.length := by omega
  refine ⟨h2, ?_⟩
  rw [List.get_of_eq (swapRemove_eq l i hl) ⟨k, hk⟩]
  rw [List.get_eq_getElem, List.get_eq_getElem, List.getElem_dropLast, List.getElem_set_ne]
  exact fun hc => hki hc.symm

theorem swapRemove_get_self {α : Type} (l : List α) (i : ℕ)
    (hk : i < (swapRemove l i).length) :
    ∃ h2 : l.length - 1 < l.length, (swapRemove l i).get ⟨i, hk⟩ = l.get ⟨l.length - 1, h2⟩ := by
  have hlen := swapRemove_length l i
  have hl : l ≠ [] := by
    rintro rfl
    rw [show swapRemove ([] : List α) i = [] from rfl] at hk
    simp at hk
  have h2 : l.length - 1 < l.length := by
    have := List.length_pos.mpr hl
    omega
  refine ⟨h2, ?_⟩
  rw [List.get_of_eq (swapRemove_eq l i hl) ⟨i, hk⟩]
  rw [List.get_eq_getElem, List.get_eq_getElem, List.getElem_dropLast, List.getElem_set_self,
    List.getLast_eq_getElem]

/-! ### The state produced by `QuadTree.remove` (proof scaffolding) -/

/-- The root produced by a successful `QuadTree.remove` at location `(p, i)`. -/
def removedRoot {α : Type} (qt : QuadTree α) (p : List (Fin 4)) (i : ℕ) : QTree α :=
  let root1 := qt.root.setAt p ((qt.root.at p).setItems (swapRemove (qt.root.at p).items i))
  root1.setAt p ((root1.at p).prune).1

/-- The location map produced by a successful `QuadTree.remove` at `(p, i)`. -/
def removedLocs {α : Type} [DecidableEq α] (qt : QuadTree α) (x : α) (p : List (Fin 4))
    (i : ℕ) : α → Option (List (Fin 4) × ℕ) :=
  let items' := swapRemove (qt.root.at p).items i
  let locs1 : α → Option (List (Fin 4) × ℕ) := fun y => if y = x then none else qt.itemLocations y
  if i < items'.length then
    fun y => if y = items'.getD i x then some (p, i) else locs1 y
  else locs1

theorem remove_eq {α : Type} [DecidableEq α] (qt : QuadTree α) (x : α) (p : List (Fin 4))
    (i : ℕ) (hx : qt.itemLocations x = some (p, i)) :
    qt.remove x = (⟨removedRoot qt p i, removedLocs qt x p i⟩, true) := by
  unfold QuadTree.remove removedRoot removedLocs
  rw [hx]

theorem append_cons_ne {β : Type} (p : List β) (j : β) (r : List β) : p ++ j :: r ≠ p := by
  intro h
  have hlen := congrArg List.length h
  simp at hlen

theorem removedRoot_eq {α : Type} (qt : QuadTree α) (p : List (Fin 4)) (i : ℕ)
    (hv : QTree.validPath qt.root p) :
    removedRoot qt p i =
      qt.root.setAt p
        ((((qt.root.at p).setItems (swapRemove (qt.root.at p).items i)).prune).1) := by
  unfold removedRoot
  dsimp only
  rw [QTree.setAt_at_self _ _ _ hv, QTree.setAt_setAt _ _ _ _ hv]

theorem removedRoot_items_self {α : Type} (qt : QuadTree α) (p : List (Fin 4)) (i : ℕ)
    (hv : QTree.validPath qt.root p) (hne : qt.root.at p ≠ QTree.nil) :
    ((removedRoot qt p i).at p).items = swapRemove (qt.root.at p).items i := by
  rw [removedRoot_eq qt p i hv, QTree.setAt_at_self _ _ _ hv, QTree.items_prune,
    QTree.items_setItems _ _ hne]

theorem removedRoot_at_sub {α : Type} [DecidableEq α] (qt : QuadTree α) (p : List (Fin 4))
    (i : ℕ) (hv : QTree.validPath qt.root p) (j : Fin 4) (r : List (Fin 4)) :
    (removedRoot qt p i).at (p ++ (j :: r)) =
      if (qt.root.at (p ++ (j :: r))).allItems = [] then QTree.nil
      else ((qt.root.at (p ++ (j :: r))).prune).1 := by
  rw [removedRoot_eq qt p i hv, QTree.at_append, QTree.setAt_at_self _ _ _ hv,
    QTree.prune_at_cons, QTree.at_setItems_cons, ← QTree.at_append]

theorem removedRoot_items_other {α : Type} (qt : QuadTree α) (p : List (Fin 4)) (i : ℕ)
    (hv : QTree.validPath qt.root p) (q : List (Fin 4)) (hq : ∀ r, q ≠ p ++ r) :
    ((removedRoot qt p i).at q).items = (qt.root.at q).items := by
  rw [removedRoot_eq qt p i hv]
  exact QTree.items_at_setAt_of_ne _ _ _ _ hv hq

theorem removedLocs_eq_old {α : Type} [DecidableEq α] (qt : QuadTree α) (x : α)
    (p : List (Fin 4)) (i : ℕ) (y : α) (hyx : y ≠ x)
    (hyd : ∀ _ : i < (swapRemove (qt.root.at p).items i).length,
      y ≠ (swapRemove (qt.root.at p).items i).getD i x) :
    removedLocs qt x p i y = qt.itemLocations y := by
  unfold removedLocs
  by_cases hil : i < (swapRemove (qt.root.at p).items i).length
  · rw [if_pos hil]
    dsimp only
    rw [if_neg (hyd hil), if_neg hyx]
  · rw [if_neg hil]
    rw [if_neg hyx]

theorem removedLocs_getD {α : Type} [DecidableEq α] (qt : QuadTree α) (x : α)
    (p : List (Fin 4)) (i : ℕ) (hil : i < (swapRemove (qt.root.at p).items i).length) :
    removedLocs qt x p i ((swapRemove (qt.root.at p).items i).getD i x) = some (p, i) := by
  unfold removedLocs
  rw [if_pos hil]
  dsimp only
  rw [if_pos rfl]

theorem swapRemove_getD_eq_last {α : Type} (l : List α) (i : ℕ) (x : α)
    (hil : i < (swapRemove l i).length) :
    ∃ h2 : l.length - 1 < l.length,
      (swapRemove l i).getD i x = l.get ⟨l.length - 1, h2⟩ := by
  obtain ⟨h2, hgl⟩ := swapRemove_get_self l i hil
  refine ⟨h2, ?_⟩
  have hx1 : (swapRemove l i).getD i x = (swapRemove l i).get ⟨i, hil⟩ := by
    rw [List.getD_eq_getElem _ _ hil]
    rfl
  rw [hx1]
  exact hgl

/-- Elements of a node list are determined by their index (the location map is
a two-sided inverse of indexing). -/
theorem wf_get_inj {α : Type} (qt : QuadTree α)
    (hw2 : ∀ p' i' (h : i' < ((qt.root.at p').items).length),
      qt.itemLocations (((qt.root.at p').items).get ⟨i', h⟩) = some (p', i'))
    {p q : List (Fin 4)} {k k' : ℕ}
    (hk : k < ((qt.root.at p).items).length) (hk' : k' < ((qt.root.at q).items).length)
    (heq : ((qt.root.at p).items).get ⟨k, hk⟩ = ((qt.root.at q).items).get ⟨k', hk'⟩) :
    p = q ∧ k = k' := by
  have e1 := hw2 p k hk
  have e2 := hw2 q k' hk'
  rw [heq] at e1
  rw [e1] at e2
  simp only [Option.some_inj, Prod.mk.injEq] at e2
  exact ⟨e2.1, e2.2⟩

theorem removedLocs_other {α : Type} [DecidableEq α] (qt : QuadTree α) (x : α)
    (p : List (Fin 4)) (i : ℕ)
    (hw2 : ∀ p' i' (h : i' < ((qt.root.at p').items).length),
      qt.itemLocations (((qt.root.at p').items).get ⟨i', h⟩) = some (p', i'))
    (hx : qt.itemLocations x = some (p, i))
    (y : α) (q : List (Fin 4)) (k : ℕ) (hq : q ≠ p)
    (hold : qt.itemLocations y = some (q, k)) :
    removedLocs qt x p i y = some (q, k) := by
  have hyx : y ≠ x := by
    rintro rfl
    rw [hold] at hx
    simp only [Option.some_inj, Prod.mk.injEq] at hx
    exact hq hx.1
  rw [removedLocs_eq_old qt x p i y hyx ?_]
  · exact hold
  · intro hil hc
    obtain ⟨h2, hgd⟩ := swapRemove_getD_eq_last (qt.root.at p).items i x hil
    rw [hgd] at hc
    have e2 := hw2 p ((qt.root.at p).items.length - 1) h2
    rw [← hc, hold] at e2
    simp only [Option.some_inj, Prod.mk.injEq] at e2
    exact hq e2.1

theorem wf_path_valid {α : Type} (qt : QuadTree α) (p : List (Fin 4)) (i : ℕ)
    (hi : i < ((qt.root.at p).items).length) :
    qt.root.at p ≠ QTree.nil ∧ QTree.validPath qt.root p := by
  have hne : qt.root.at p ≠ QTree.nil := by
    intro h
    rw [h] at hi
    simp [QTree.items] at hi
  exact ⟨hne, QTree.validPath_of_at_ne_nil _ _ hne⟩

/-- An item other than `x` (and other than the swapped tail slot value) keeps
a valid slot after removal. -/
theorem removed_cond1_old {α : Type} [DecidableEq α] (qt : QuadTree α) (x : α)
    (p : List (Fin 4)) (i : ℕ)
    (hw1 : ∀ x' p' i', qt.itemLocations x' = some (p', i') →
      ∃ h : i' < ((qt.root.at p').items).length, ((qt.root.at p').items).get ⟨i', h⟩ = x')
    (hx : qt.itemLocations x = some (p, i))
    (y : α) (q : List (Fin 4)) (k : ℕ) (hyx : y ≠ x)
    (hyd : ∀ _ : i < (swapRemove (qt.root.at p).items i).length,
      y ≠ (swapRemove (qt.root.at p).items i).getD i x)
    (hold : qt.itemLocations y = some (q, k)) :
    ∃ h : k < (((removedRoot qt p i).at q).items).length,
      (((removedRoot qt p i).at q).items).get ⟨k, h⟩ = y := by
  obtain ⟨hi, hgx⟩ := hw1 x p i hx
  obtain ⟨hne, hv⟩ := wf_path_valid qt p i hi
  obtain ⟨hk, hgy⟩ := hw1 y q k hold
  have hlen' := swapRemove_length (qt.root.at p).items i
  by_cases hqpe : q = p
  · subst hqpe
    have hki : k ≠ i := by
      intro hc
      apply hyx
      rw [← hgy, ← hgx]
      subst hc
      rfl
    by_cases hil : i < (swapRemove (qt.root.at q).items i).length
    · have hkl : k ≠ (qt.root.at q).items.length - 1 := by
        intro hc
        obtain ⟨h2, hgd⟩ := swapRemove_getD_eq_last (qt.root.at q).items i x hil
        apply hyd hil
        rw [hgd, ← hgy]
        congr 1
        exact Fin.ext hc
      have hk' : k < (swapRemove (qt.root.at q).items i).length := by omega
      rw [removedRoot_items_self qt q i hv hne]
      refine ⟨hk', ?_⟩
      obtain ⟨h2', hgl⟩ := swapRemove_get_of_ne (qt.root.at q).items i k hki hk'
      rw [hgl]
      exact hgy
    · have hk' : k < (swapRemove (qt.root.at q).items i).length := by omega
      rw [removedRoot_items_self qt q i hv hne]
      refine ⟨hk', ?_⟩
      obtain ⟨h2', hgl⟩ := swapRemove_get_of_ne (qt.root.at q).items i k hki hk'
      rw [hgl]
      exact hgy
  · by_cases hqp : ∃ r, q = p ++ r
    · obtain ⟨r, rfl⟩ := hqp
      cases r with
      | nil => exact absurd (List.append_nil p) hqpe
      | cons j r' =>
          have hallne : (qt.root.at (p ++ j :: r')).allItems ≠ [] := by
            apply QTree.items_ne_nil_allItems
            intro hnil
            rw [hnil] at hk
            simp at hk
          rw [removedRoot_at_sub qt p i hv j r', if_neg hallne, QTree.items_prune]
          exact ⟨hk, hgy⟩
    · push_neg at hqp
      rw [removedRoot_items_other qt p i hv q hqp]
      exact ⟨hk, hgy⟩

/-- First well-formedness component after removal. -/
theorem removed_cond1 {α : Type} [DecidableEq α] (qt : QuadTree α) (x : α)
    (p : List (Fin 4)) (i : ℕ)
    (hw1 : ∀ x' p' i', qt.itemLocations x' = some (p', i') →
      ∃ h : i' < ((qt.root.at p').items).length, ((qt.root.at p').items).get ⟨i', h⟩ = x')
    (hx : qt.itemLocations x = some (p, i)) :
    ∀ y q k, removedLocs qt x p i y = some (q, k) →
      ∃ h : k < (((removedRoot qt p i).at q).items).length,
        (((removedRoot qt p i).at q).items).get ⟨k, h⟩ = y := by
  intro y q k hy
  obtain ⟨hi, hgx⟩ := hw1 x p i hx
  obtain ⟨hne, hv⟩ := wf_path_valid qt p i hi
  unfold removedLocs at hy
  by_cases hil : i < (swapRemove (qt.root.at p).items i).length
  · rw [if_pos hil] at hy
    dsimp only at hy
    by_cases hyd : y = (swapRemove (qt.root.at p).items i).getD i x
    · rw [if_pos hyd] at hy
      simp only [Option.some_inj, Prod.mk.injEq] at hy
      obtain ⟨rfl, rfl⟩ := hy
      rw [removedRoot_items_self qt p i hv hne]
      refine ⟨hil, ?_⟩
      rw [hyd, List.getD_eq_getElem _ _ hil]
      rfl
    · rw [if_neg hyd] at hy
      by_cases hyx : y = x
      · rw [if_pos hyx] at hy
        exact absurd hy (by simp)
      · rw [if_neg hyx] at hy
        exact removed_cond1_old qt x p i hw1 hx y q k hyx (fun _ => hyd) hy
  · rw [if_neg hil] at hy
    by_cases hyx : y = x
    · rw [if_pos hyx] at hy
      exact absurd hy (by simp)
    · rw [if_neg hyx] at hy
      exact removed_cond1_old qt x p i hw1 hx y q k hyx (fun h => absurd h hil) hy

/-- Second well-formedness component after removal (in particular the swapped
tail item has its mapping updated). -/
theorem removed_cond2 {α : Type} [DecidableEq α] (qt : QuadTree α) (x : α)
    (p : List (Fin 4)) (i : ℕ)
    (hw1 : ∀ x' p' i', qt.itemLocations x' = some (p', i') →
      ∃ h : i' < ((qt.root.at p').items).length, ((qt.root.at p').items).get ⟨i', h⟩ = x')
    (hw2 : ∀ p' i' (h : i' < ((qt.root.at p').items).length),
      qt.itemLocations (((qt.root.at p').items).get ⟨i', h⟩) = some (p', i'))
    (hx : qt.itemLocations x = some (p, i)) :
    ∀ q k (h : k < (((removedRoot qt p i).at q).items).length),
      removedLocs qt x p i ((((removedRoot qt p i).at q).items).get ⟨k, h⟩) = some (q, k) := by
  intro q k
  obtain ⟨hi, hgx⟩ := hw1 x p i hx
  obtain ⟨hne, hv⟩ := wf_path_valid qt p i hi
  have hlen' := swapRemove_length (qt.root.at p).items i
  by_cases hqp : ∃ r, q = p ++ r
  · obtain ⟨r, rfl⟩ := hqp
    cases r with
    | nil =>
        rw [List.append_nil, removedRoot_items_self qt p i hv hne]
        intro h
        by_cases hki : k = i
        · subst hki
          have hgd : (swapRemove (qt.root.at p).items k).get ⟨k, h⟩ =
              (swapRemove (qt.root.at p).items k).getD k x := by
            rw [List.getD_eq_getElem _ _ h]
            rfl
          rw [hgd]
          exact removedLocs_getD qt x p k h
        · obtain ⟨h2, hgl⟩ := swapRemove_get_of_ne (qt.root.at p).items i k hki h
          rw [hgl]
          have hold := hw2 p k h2
          have hyx : (qt.root.at p).items.get ⟨k, h2⟩ ≠ x := by
            intro hc
            rw [hc, hx] at hold
            simp only [Option.some_inj, Prod.mk.injEq] at hold
            exact hki hold.2.symm
          have hyd : ∀ _ : i < (swapRemove (qt.root.at p).items i).length,
              (qt.root.at p).items.get ⟨k, h2⟩ ≠
                (swapRemove (qt.root.at p).items i).getD i x := by
            intro hil hc
            obtain ⟨h3, hgd⟩ := swapRemove_getD_eq_last (qt.root.at p).items i x hil
            rw [hgd] at hc
            have hinj := wf_get_inj qt hw2 h2 h3 hc
            omega
          rw [removedLocs_eq_old qt x p i _ hyx hyd]
          exact hold
    | cons j r' =>
        rw [removedRoot_at_sub qt p i hv j r']
        by_cases hall : (qt.root.at (p ++ j :: r')).allItems = []
        · rw [if_pos hall]
          intro h
          exact absurd h (by simp [QTree.items])
        · rw [if_neg hall, QTree.items_prune]
          intro h
          exact removedLocs_other qt x p i hw2 hx _ _ _ (append_cons_ne p j r')
            (hw2 (p ++ j :: r') k h)
  · push_neg at hqp
    rw [removedRoot_items_other qt p i hv q hqp]
    intro h
    have hqnp : q ≠ p := by
      have := hqp []
      simpa using this
    exact removedLocs_other qt x p i hw2 hx _ _ _ hqnp (hw2 q k h)

/-- The removed item is deleted from the map. -/
theorem removed_x_none {α : Type} [DecidableEq α] (qt : QuadTree α) (x : α)
    (p : List (Fin 4)) (i : ℕ)
    (hw2 : ∀ p' i' (h : i' < ((qt.root.at p').items).length),
      qt.itemLocations (((qt.root.at p').items).get ⟨i', h⟩) = some (p', i'))
    (hx : qt.itemLocations x = some (p, i)) :
    removedLocs qt x p i x = none := by
  have hlen' := swapRemove_length (qt.root.at p).items i
  unfold removedLocs
  by_cases hil : i < (swapRemove (qt.root.at p).items i).length
  · rw [if_pos hil]
    dsimp only
    have hxd : x ≠ (swapRemove (qt.root.at p).items i).getD i x := by
      obtain ⟨h2, hgd⟩ := swapRemove_getD_eq_last (qt.root.at p).items i x hil
      rw [hgd]
      intro hc
      have e2 := hw2 p ((qt.root.at p).items.length - 1) h2
      rw [← hc, hx] at e2
      simp only [Option.some_inj, Prod.mk.injEq] at e2
      omega
    rw [if_neg hxd, if_pos rfl]
  · rw [if_neg hil]
    rw [if_pos rfl]

/-- The removed item is gone from every node's item list. -/
theorem removed_absent {α : Type} [DecidableEq α] (qt : QuadTree α) (x : α)
    (p : List (Fin 4)) (i : ℕ)
    (hw1 : ∀ x' p' i', qt.itemLocations x' = some (p', i') →
      ∃ h : i' < ((qt.root.at p').items).length, ((qt.root.at p').items).get ⟨i', h⟩ = x')
    (hw2 : ∀ p' i' (h : i' < ((qt.root.at p').items).length),
      qt.itemLocations (((qt.root.at p').items).get ⟨i', h⟩) = some (p', i'))
    (hx : qt.itemLocations x = some (p, i)) :
    ∀ q, x ∉ ((removedRoot qt p i).at q).items := by
  intro q hmem
  obtain ⟨hi, hgx⟩ := hw1 x p i hx
  obtain ⟨hne, hv⟩ := wf_path_valid qt p i hi
  have hlen' := swapRemove_length (qt.root.at p).items i
  by_cases hqp : ∃ r, q = p ++ r
  · obtain ⟨r, rfl⟩ := hqp
    cases r with
    | nil =>
        rw [List.append_nil, removedRoot_items_self qt p i hv hne] at hmem
        obtain ⟨⟨k, hk⟩, hg⟩ := List.mem_iff_get.mp hmem
        by_cases hki : k = i
        · subst hki
          obtain ⟨h2, hgl⟩ := swapRemove_get_self (qt.root.at p).items k hk
          rw [hgl] at hg
          rw [← hgx] at hg
          have hinj := wf_get_inj qt hw2 h2 hi hg
          omega
        · obtain ⟨h2, hgl⟩ := swapRemove_get_of_ne (qt.root.at p).items i k hki hk
          rw [hgl, ← hgx] at hg
          have hinj := wf_get_inj qt hw2 h2 hi hg
          omega
    | cons j r' =>
        rw [removedRoot_at_sub qt p i hv j r'] at hmem
        by_cases hall : (qt.root.at (p ++ j :: r')).allItems = []
        · rw [if_pos hall] at hmem
          simp [QTree.items] at hmem
        · rw [if_neg hall, QTree.items_prune] at hmem
          obtain ⟨⟨k, hk⟩, hg⟩ := List.mem_iff_get.mp hmem
          have e := hw2 (p ++ j :: r') k hk
          rw [hg, hx] at e
          simp only [Option.some_inj, Prod.mk.injEq] at e
          exact append_cons_ne p j r' e.1.symm
  · push_neg at hqp
    rw [removedRoot_items_other qt p i hv q hqp] at hmem
    obtain ⟨⟨k, hk⟩, hg⟩ := List.mem_iff_get.mp hmem
    have e := hw2 q k hk
    rw [hg, hx] at e
    simp only [Option.some_inj, Prod.mk.injEq] at e
    exact (hqp []) (by rw [List.append_nil]; exact e.1.symm)

/-- Presence in the map is preserved for every other item. -/
theorem removed_isSome {α : Type} [DecidableEq α] (qt : QuadTree α) (x : α)
    (p : List (Fin 4)) (i : ℕ)
    (hw2 : ∀ p' i' (h : i' < ((qt.root.at p').items).length),
      qt.itemLocations (((qt.root.at p').items).get ⟨i', h⟩) = some (p', i')) :
    ∀ y, y ≠ x → ((removedLocs qt x p i y).isSome ↔ (qt.itemLocations y).isSome) := by
  intro y hyx
  by_cases hil : i < (swapRemove (qt.root.at p).items i).length
  · by_cases hyd : y = (swapRemove (qt.root.at p).items i).getD i x
    · rw [hyd, removedLocs_getD qt x p i hil]
      obtain ⟨h2, hgd⟩ := swapRemove_getD_eq_last (qt.root.at p).items i x hil
      rw [hgd, hw2 p ((qt.root.at p).items.length - 1) h2]
      simp
    · rw [removedLocs_eq_old qt x p i y hyx (fun _ => hyd)]
  · rw [removedLocs_eq_old qt x p i y hyx (fun h => absurd h hil)]

/-- The owning node's subtree is fully pruned: every surviving strict
descendant still holds some item transitively. -/
theorem removed_pruned {α : Type} [DecidableEq α] (qt : QuadTree α) (x : α)
    (p : List (Fin 4)) (i : ℕ)
    (hw1 : ∀ x' p' i', qt.itemLocations x' = some (p', i') →
      ∃ h : i' < ((qt.root.at p').items).length, ((qt.root.at p').items).get ⟨i', h⟩ = x')
    (hx : qt.itemLocations x = some (p, i)) :
    ∀ r, r ≠ [] → ((removedRoot qt p i).at (p ++ r) = QTree.nil ∨
      ((removedRoot qt p i).at (p ++ r)).allItems ≠ []) := by
  intro r hr
  obtain ⟨hi, hgx⟩ := hw1 x p i hx
  obtain ⟨hne, hv⟩ := wf_path_valid qt p i hi
  cases r with
  | nil => exact absurd rfl hr
  | cons j r' =>
      rw [removedRoot_at_sub qt p i hv j r']
      by_cases hall : (qt.root.at (p ++ j :: r')).allItems = []
      · rw [if_pos hall]
        exact Or.inl rfl
      · rw [if_neg hall]
        right
        rw [QTree.prune_allItems]
        exact hall

/-- C8: `QuadTree.remove` on a mapped item succeeds, preserves the location
map's consistency (including remapping the tail item swapped into the freed
slot), deletes the item from the map and from every node's item list, keeps
every other item's presence, and prunes the owning node's subtree so that
every surviving strict descendant still holds items (a subtree is removed
exactly when it holds no items, i.e. it and all its children are prunable). -/
theorem quadtree_remove_spec {α : Type} [DecidableEq α] (qt : QuadTree α) (x : α)
    (p : List (Fin 4)) (i : ℕ) (hwf : qt.WF) (hx : qt.itemLocations x = some (p, i)) :
    (qt.remove x).2 = true ∧
    ((qt.remove x).1).WF ∧
    (qt.remove x).1.itemLocations x = none ∧
    (∀ q, x ∉ (((qt.remove x).1.root.at q).items)) ∧
    (∀ y, y ≠ x → (((qt.remove x).1.itemLocations y).isSome ↔ (qt.itemLocations y).isSome)) ∧
    (∀ r, r ≠ [] → ((qt.remove x).1.root.at (p ++ r) = QTree.nil ∨
      (((qt.remove x).1.root.at (p ++ r)).allItems ≠ []))) := by
  obtain ⟨hw1, hw2⟩ := hwf
  rw [remove_eq qt x p i hx]
  exact ⟨rfl,
    ⟨removed_cond1 qt x p i hw1 hx, removed_cond2 qt x p i hw1 hw2 hx⟩,
    removed_x_none qt x p i hw2 hx,
    removed_absent qt x p i hw1 hw2 hx,
    removed_isSome qt x p i hw2,
    removed_pruned qt x p i hw1 hx⟩

/-- Concrete one-node quadtree holding the single item 7. -/
def qtW : QuadTree ℕ :=
  { root := .node [7] .nil .nil .nil .nil
    itemLocations := fun y => if y = 7 then some ([], 0) else none }

theorem qtW_wf : qtW.WF := by
  constructor
  · intro x p i hx
    have hx' : (if x = 7 then some (([] : List (Fin 4)), (0 : ℕ)) else none) = some (p, i) :=
      hx
    by_cases h7 : x = 7
    · rw [if_pos h7] at hx'
      simp only [Option.some_inj, Prod.mk.injEq] at hx'
      obtain ⟨hp, hi⟩ := hx'
      subst hp
      subst hi
      exact ⟨by decide, by rw [h7]; rfl⟩
    · rw [if_neg h7] at hx'
      exact absurd hx' (by simp)
  · intro p i h
    cases p with
    | nil =>
        have hi0 : i = 0 := by
          have h1 : i < 1 := h
          omega
        subst hi0
        rfl
    | cons j p' =>
        have hnil : qtW.root.at (j :: p') = QTree.nil := by
          show (qtW.root.child j).at p' = QTree.nil
          have hc : qtW.root.child j = QTree.nil := by fin_cases j <;> rfl
          rw [hc, QTree.at_nil]
        rw [hnil] at h
        simp [QTree.items] at h

/-- C8 witness: the removal theorem applied to the concrete quadtree. -/
theorem quadtree_remove_spec_witness :
    qtW.WF ∧ qtW.itemLocations 7 = some ([], 0) ∧
    (qtW.remove 7).2 = true ∧ (qtW.remove 7).1.itemLocations 7 = none :=
  ⟨qtW_wf, rfl, (quadtree_remove_spec qtW 7 [] 0 qtW_wf rfl).1,
    (quadtree_remove_spec qtW 7 [] 0 qtW_wf rfl).2.2.1⟩

/-! ## C10 — `PhysicsEngine.removeBody` -/

theorem swapRemove_perm {α : Type} (l : List α) :
    ∀ i, i < l.length → (swapRemove l i).Perm (l.eraseIdx i) := by
  induction l with
  | nil =>
      intro i hi
      simp at hi
  | cons a t ih =>
      intro i hi
      cases i with
      | zero =>
          cases t with
          | nil => exact List.Perm.refl _
          | cons b t' =>
              have htne : (b :: t') ≠ [] := by simp
              have hne : (a :: b :: t') ≠ [] := by simp
              rw [swapRemove_eq _ 0 hne]
              have hlast : (a :: b :: t').getLast hne = (b :: t').getLast htne :=
                List.getLast_cons htne
              rw [hlast]
              show (((b :: t').getLast htne :: b :: t').dropLast).Perm (b :: t')
              rw [List.dropLast_cons_of_ne_nil htne]
              have hp := (List.perm_append_singleton ((b :: t').getLast htne)
                ((b :: t').dropLast)).symm
              rw [List.dropLast_append_getLast htne] at hp
              exact hp
      | succ j =>
          cases t with
          | nil => simp at hi
          | cons b t' =>
              have htne : (b :: t') ≠ [] := by simp
              have hne : (a :: b :: t') ≠ [] := by simp
              have htj : j < (b :: t').length := by
                simp at hi ⊢
                omega
              rw [swapRemove_eq _ (j + 1) hne]
              have hlast : (a :: b :: t').getLast hne = (b :: t').getLast htne :=
                List.getLast_cons htne
              rw [hlast]
              show ((a :: ((b :: t').set j ((b :: t').getLast htne))).dropLast).Perm
                (a :: ((b :: t').eraseIdx j))
              have hsetne : (b :: t').set j ((b :: t').getLast htne) ≠ [] := by
                intro hc
                have hlen := congrArg List.length hc
                simp at hlen
              rw [List.dropLast_cons_of_ne_nil hsetne]
              refine List.Perm.cons a ?_
              have hrec := ih j htj
              rw [swapRemove_eq _ j htne] at hrec
              exact hrec

theorem removeBodyList_mem_perm {α : Type} [DecidableEq α] (bodies : List α) (b : α)
    (hb : b ∈ bodies) : (removeBodyList bodies b).Perm (bodies.erase b) := by
  have hne : bodies ≠ [] := by
    intro hc
    rw [hc] at hb
    cases hb
  unfold removeBodyList
  rw [if_pos hb, List.getLast?_eq_getLast bodies hne]
  have hidx : bodies.indexOf b < bodies.length := List.indexOf_lt_length.mpr hb
  have hsw := swapRemove_perm bodies (bodies.indexOf b) hidx
  rw [swapRemove_eq bodies (bodies.indexOf b) hne] at hsw
  rw [← List.eraseIdx_indexOf_eq_erase]
  exact hsw

theorem removeBodyList_not_mem {α : Type} [DecidableEq α] (bodies : List α) (b : α)
    (hb : b ∉ bodies) : removeBodyList bodies b = bodies.dropLast := by
  unfold removeBodyList
  rw [if_neg hb]

/-- C10: `removeBody` swap-removes a present body from the body list (the
rest survive as a permutation of `erase`), and on the broad-phase a mapped
body is deleted from the location map and from every node while every other
item's presence is kept; but when the body is absent from a non-empty list,
the call still removes the list's last body (it is not a no-op), because
`indexOf` returns `-1` and the destructuring swap writes `undefined` into the
last slot before the `pop`. -/
theorem removeBody_spec {α : Type} [DecidableEq α] (bodies : List α)
    (qt : QuadTree α) (b : α) :
    (b ∈ bodies → (removeBodyList bodies b).Perm (bodies.erase b)) ∧
    (b ∉ bodies → removeBodyList bodies b = bodies.dropLast) ∧
    (∀ l' a, b ∉ bodies → bodies = l' ++ [a] → removeBodyList bodies b = l') ∧
    (∀ p i, qt.WF → qt.itemLocations b = some (p, i) →
      (qt.remove b).1.itemLocations b = none ∧
      (∀ q, b ∉ ((qt.remove b).1.root.at q).items) ∧
      (∀ y, y ≠ b → (((qt.remove b).1.itemLocations y).isSome ↔
        (qt.itemLocations y).isSome))) := by
  refine ⟨removeBodyList_mem_perm bodies b, removeBodyList_not_mem bodies b, ?_, ?_⟩
  · intro l' a hb hsplit
    rw [removeBodyList_not_mem bodies b hb, hsplit]
    exact List.dropLast_concat
  · intro p i hwf hx
    obtain ⟨hw1, hw2⟩ := hwf
    rw [remove_eq qt b p i hx]
    exact ⟨removed_x_none qt b p i hw2 hx,
      removed_absent qt b p i hw1 hw2 hx,
      removed_isSome qt b p i hw2⟩

/-- C10 witness: the removal theorem applied to concrete body lists (one with
the body present, one without, where the last body is removed anyway). -/
theorem removeBody_spec_witness :
    (2 ∈ [1, 2, 3] ∧ (removeBodyList [1, 2, 3] 2).Perm ([1, 2, 3].erase 2)) ∧
    ((5 : ℕ) ∉ [1, 2] ∧ [1, 2] = [1] ++ [2] ∧ removeBodyList [1, 2] 5 = [1]) := by
  refine ⟨⟨by decide, (removeBody_spec [1, 2, 3] qtW 2).1 (by decide)⟩,
    ⟨by decide, rfl, (removeBody_spec [1, 2] qtW 5).2.2.1 [1] 2 (by decide) rfl⟩⟩

end Phys
